import Mathlib

/-!
Verification of the Laconic request-dispatch core (routing, parameter
binding, priority registries, request-context state machine) against its
natural-language specification.

Each section embeds one component of the source shallowly: Python dicts
become association lists, Python `None` becomes `Option.none`, raised
exceptions become `Except.error` values, and object state becomes explicit
record passing.  The theorems at the end of the file settle the spec claims
against these definitions.
-/

namespace Laconic

/-! ## Python value model

A small inductive of Python runtime values, sufficient for the attribute
scopes, parameter binding and response plumbing of the source. -/

inductive PyVal where
  | vint (n : Int)
  | vstr (s : String)
  | vdict (entries : List (String × PyVal))
  | vnone
  | vheaders
  | vcontext

/-! ## `utilities.AttributeScope`

`AttributeScope.__init__` stores a data dict and an optional parent scope.
`__getitem__` is translated exactly as written in the source:

    def __getitem__(self, key):
        if key in self.data:
            return self.data
        return self.parent[key] if self.parent is not None else None

Note the body returns `self.data` — the whole dict — when the key is
present.  A scope with `parent = None` is the `root` constructor, a scope
with a parent is `child`. -/

inductive AttributeScope where
  | root (data : List (String × PyVal))
  | child (data : List (String × PyVal)) (parent : AttributeScope)

def AttributeScope.getitem : AttributeScope → String → PyVal
  | .root data, key =>
      if (data.lookup key).isSome then .vdict data else .vnone
  | .child data parent, key =>
      if (data.lookup key).isSome then .vdict data else parent.getitem key

/-! ## `routing.Router.determine_endpoint`

An endpoint is modelled by its compiled URL-rule matcher (a boolean
predicate on the path, standing for `URLRule.match`) and its method list.
`Endpoint.match` returns the pair `(url_rule.match(path), method in methods)`.

`determine_endpoint` scans the endpoints in registration order; on a full
match it returns the endpoint, on a path-only match it accumulates that
endpoint's methods into the `available_methods` set (modelled as a
duplicate-free list built in encounter order).

If the loop ends with a non-empty `available_methods`, the source executes
`raise APIMethodNotAllowedError(...)`.  Constructing that exception calls
`BaseAPIException.__init__(description, status_code, name, data)` *without
passing `self`* (exceptions.py line 125), so `description` is bound as
`self` and `Exception.__init__(self)` is handed a `str`: instantiation
itself raises `TypeError` before `valid_methods` is ever attached.  The
model therefore produces `RouteOutcome.typeError` on this branch. -/

structure RouterEndpoint where
  urlMatch : String → Bool
  methods : List String

/-- `set.update(ms)` on a set modelled as a duplicate-free list. -/
def setUpdate (acc : List String) (ms : List String) : List String :=
  acc ++ ms.filter (fun m => !acc.contains m)

inductive RouteOutcome where
  | found (e : RouterEndpoint)
  | typeError
  | endpointNotFound

def determineLoop (path method : String) :
    List RouterEndpoint → List String → RouteOutcome
  | [], avail =>
      if avail.length > 0 then .typeError else .endpointNotFound
  | e :: rest, avail =>
      if e.urlMatch path && e.methods.contains method then .found e
      else if e.urlMatch path then determineLoop path method rest (setUpdate avail e.methods)
      else determineLoop path method rest avail

def determine_endpoint (endpoints : List RouterEndpoint) (path method : String) :
    RouteOutcome :=
  determineLoop path method endpoints []

/-- `Router.get_available_methods`: same scan without the method filter. -/
def get_available_methods (endpoints : List RouterEndpoint) (path : String) :
    List String :=
  endpoints.foldl
    (fun acc e => if e.urlMatch path then setUpdate acc e.methods else acc) []

/-! ## `routing.URLRule`

`URLRule.__init__` splits the template on `re.compile(r'(<|>|:)')` —
keeping the single-character delimiters as their own tokens, with the
(possibly empty) literal text between and around them — and then scans the
token list: a `<` must be followed by `type`, `:`, `name`, `>`; a stray `>`
or `:` is an error; anything else is escaped literal text.  Each parameter
contributes the named group `(?P<name>PATTERN)` with `PATTERN` drawn from

    TYPE_REGEXES = {'int': r'\-?\d+', 'string': r'[^/]+',
                    'float': r'\-?\d+(\.\d*)?', 'path': r'[^/].?'}

`match`/`extract_params` run `regex.fullmatch` on the path.  The model
compiles the template to a token list and implements `fullmatch` for this
restricted regex class directly: a literal token is matched verbatim and a
parameter token is matched by trying its candidate captures in exactly the
greedy backtracking preference order Python's `re` uses for the fixed
patterns above (longest capture first, optional pieces taken before
skipped).  `\d` is an ASCII digit, `[^/]` is any character other than `/`,
and `.` is any character other than a newline, as in the source patterns. -/

inductive UrlPType where
  | pint
  | pfloat
  | pstring
  | ppath
  deriving DecidableEq

inductive UrlToken where
  | lit (text : List Char)
  | param (ty : UrlPType) (name : String)
  deriving DecidableEq

/-- `re.split(r'(<|>|:)', template)`: literal chunks interleaved with the
single-character delimiter tokens, empty chunks included. -/
def ruleSplit (cs : List Char) : List String :=
  let step := fun (c : Char) (st : List Char × List String) =>
    if c = '<' ∨ c = '>' ∨ c = ':' then
      ([], String.mk [c] :: String.mk st.1 :: st.2)
    else (c :: st.1, st.2)
  let fin := cs.foldr step ([], [])
  String.mk fin.1 :: fin.2

def typeRegexOf : String → Option UrlPType
  | "int" => some .pint
  | "float" => some .pfloat
  | "string" => some .pstring
  | "path" => some .ppath
  | _ => none

/-- The token-scanning loop of `URLRule.__init__`.  `KeyError` from an
unknown type tag, and the explicit `ValueError`s, are all caught by the
`except` clause and re-raised as `APIEndpointDefinitionError`; the model
returns `Except.error` with the offending description. -/
def ruleScan (fuel : Nat) (tokens : List String) : Except String (List UrlToken) :=
  match fuel, tokens with
  | _, [] => .ok []
  | 0, _ => .error "fuel"
  | f + 1, t :: rest =>
    if t = "<" then
      match rest with
      | ty :: colon :: name :: close :: rest2 =>
        if colon ≠ ":" ∨ close ≠ ">" then .error "missing a part of param definition"
        else
          match typeRegexOf ty with
          | none => .error "KeyError"
          | some pty => (ruleScan f rest2).map (fun ts => .param pty name :: ts)
      | _ => .error "missing a part of param definition"
    else if t = ">" ∨ t = ":" then .error "unexpected character"
    else (ruleScan f rest).map (fun ts => .lit t.data :: ts)

/-- `URLRule(url_rule)`: compile a template into its token list (re.escape
on the literal chunks only neutralises metacharacters, so a literal token
still matches its own text verbatim). -/
def compileRule (template : String) : Except String (List UrlToken) :=
  let tokens := ruleSplit template.data
  ruleScan (tokens.length + 1) tokens

def digitRun (cs : List Char) : List Char × List Char :=
  (cs.takeWhile Char.isDigit, cs.dropWhile Char.isDigit)

/-- Candidate (capture, rest) splits of `run ++ rest` taking `n, n-1, ..., 1`
characters of `run` (Python's greedy order for a `+`-quantified class). -/
def greedySplits (run rest : List Char) : List (List Char × List Char) :=
  (List.range run.length).map
    (fun j =>
      let n := run.length - j
      (run.take n, run.drop n ++ rest))

/-- Candidates for `\-?\d+`: the optional sign is consumed when present
(backtracking into the empty sign cannot succeed, since `\d+` would then
have to match the `-`), then the digit run is tried longest first. -/
def intSplits (cs : List Char) : List (List Char × List Char) :=
  match cs with
  | '-' :: rest =>
      let dr := digitRun rest
      (greedySplits dr.1 dr.2).map (fun pr => ('-' :: pr.1, pr.2))
  | _ =>
      let dr := digitRun cs
      greedySplits dr.1 dr.2

/-- Candidates for the optional fraction `(\.\d*)?` starting at `cs`:
with the group matched (`.` plus a greedy, possibly empty digit run,
longest first), then with the group skipped. -/
def fracSplits (cs : List Char) : List (List Char × List Char) :=
  (match cs with
   | '.' :: rest =>
      let dr := digitRun rest
      (List.range (dr.1.length + 1)).map
        (fun j =>
          let n := dr.1.length - j
          ('.' :: dr.1.take n, dr.1.drop n ++ dr.2))
   | _ => []) ++ [([], cs)]

/-- Candidates for `\-?\d+(\.\d*)?`: for each (greedy-ordered) digit-run
choice, all fraction choices. -/
def floatSplits (cs : List Char) : List (List Char × List Char) :=
  let core := fun (body : List Char) =>
    let dr := digitRun body
    (greedySplits dr.1 dr.2).flatMap
      (fun pr => (fracSplits pr.2).map (fun fr => (pr.1 ++ fr.1, fr.2)))
  match cs with
  | '-' :: rest => (core rest).map (fun pr => ('-' :: pr.1, pr.2))
  | _ => core cs

/-- Candidates for `[^/]+`. -/
def stringSplits (cs : List Char) : List (List Char × List Char) :=
  let run := cs.takeWhile (fun c => c ≠ '/')
  greedySplits run (cs.dropWhile (fun c => c ≠ '/'))

/-- Candidates for `[^/].?`: one non-separator character, then greedily at
most one further non-newline character. -/
def pathSplits (cs : List Char) : List (List Char × List Char) :=
  match cs with
  | [] => []
  | c :: rest =>
      if c = '/' then []
      else
        (match rest with
         | c2 :: rest2 => if c2 = '\n' then [] else [([c, c2], rest2)]
         | [] => []) ++ [([c], rest)]

def candSplits : UrlPType → List Char → List (List Char × List Char)
  | .pint, cs => intSplits cs
  | .pfloat, cs => floatSplits cs
  | .pstring, cs => stringSplits cs
  | .ppath, cs => pathSplits cs

/-- Backtracking full-match over a compiled token list, fuelled by the
token count (each recursive call drops one token, so
`tokens.length + 1` fuel is always sufficient). -/
def reMatchF : Nat → List UrlToken → List Char → Option (List (String × String))
  | 0, _, _ => none
  | _ + 1, [], cs => if cs.isEmpty then some [] else none
  | f + 1, .lit l :: ts, cs =>
      if cs.take l.length = l then reMatchF f ts (cs.drop l.length) else none
  | f + 1, .param ty nm :: ts, cs =>
      (candSplits ty cs).findSome?
        (fun pr => (reMatchF f ts pr.2).map
          (fun caps => (nm, String.mk pr.1) :: caps))

/-- `regex.fullmatch(url_path)` + `.groupdict()`: `some` capture list on a
match, `none` when the rule does not match the path. -/
def ruleFullmatch (tokens : List UrlToken) (path : String) :
    Option (List (String × String)) :=
  reMatchF (tokens.length + 1) tokens path.data

/-! ## `context._select_endpoint_params`

A declared endpoint parameter carries its name, declared type, default
(`_missing` sentinel ↦ `Option.none`) and location.  The declared type is
either one of the two specially injected classes (`Headers`, `Context` —
recognised in the source by `issubclass`) or an ordinary constructor,
modelled as a function from the raw value to `Except` (a raising Python
call).  The raw value of a non-injected parameter comes from the URL
captures when `location == 'path'` and from `context.request.param`
otherwise; both return Python `None` (`Option.none`) for an absent key.

The loop body is translated clause by clause: injected kinds bypass
coercion; an absent raw value falls back to the declared default or raises
`APIMissingParameterError`; the constructor is applied to whatever value
survived (the default included), and a raising constructor becomes
`APIInvalidParameterError` with the cause. -/

inductive ParamType where
  | headersCls
  | contextCls
  | ctorFn (f : PyVal → Except String PyVal)

structure EndpointParam where
  name : String
  ty : ParamType
  dflt : Option PyVal
  location : Option String

inductive BindError where
  | missingParameter (name : String)
  | invalidParameter (name : String) (cause : String)
  deriving DecidableEq

def resolveRaw (p : EndpointParam) (urlParams requestParam : String → Option PyVal) :
    Option PyVal :=
  if p.location = some "path" then urlParams p.name else requestParam p.name

def select_endpoint_params (urlParams requestParam : String → Option PyVal) :
    List EndpointParam → Except BindError (List (String × PyVal))
  | [] => .ok []
  | p :: rest =>
    match p.ty with
    | .headersCls =>
        (select_endpoint_params urlParams requestParam rest).map
          (fun ps => (p.name, PyVal.vheaders) :: ps)
    | .contextCls =>
        (select_endpoint_params urlParams requestParam rest).map
          (fun ps => (p.name, PyVal.vcontext) :: ps)
    | .ctorFn f =>
        let value := resolveRaw p urlParams requestParam
        match value with
        | none =>
          match p.dflt with
          | none => .error (.missingParameter p.name)
          | some d =>
            match f d with
            | .ok v => (select_endpoint_params urlParams requestParam rest).map
                (fun ps => (p.name, v) :: ps)
            | .error e => .error (.invalidParameter p.name e)
        | some raw =>
          match f raw with
          | .ok v => (select_endpoint_params urlParams requestParam rest).map
              (fun ps => (p.name, v) :: ps)
          | .error e => .error (.invalidParameter p.name e)

/-! ## `context._select_handler_params` and the handler call

Exception-handler parameters are classified by `issubclass` against
`Exception` and `Context`; anything else falls into the silent `pass`
branch and is left out of the binding dict.  The dispatch site then runs

    result = (exc_handler(**handler_params) if handler_params
              else exc_handler(exc, self))

so an *empty* binding dict switches to a positional call with the
exception instance and the context as two arguments. -/

inductive HandlerParamKind where
  | excSub
  | ctxSub
  | otherKind
  deriving DecidableEq

structure HandlerParam where
  name : String
  kind : HandlerParamKind
  deriving DecidableEq

def select_handler_params (excV ctxV : PyVal) :
    List HandlerParam → List (String × PyVal)
  | [] => []
  | p :: rest =>
    match p.kind with
    | .excSub => (p.name, excV) :: select_handler_params excV ctxV rest
    | .ctxSub => (p.name, ctxV) :: select_handler_params excV ctxV rest
    | .otherKind => select_handler_params excV ctxV rest

inductive HandlerCall where
  | kwargs (bound : List (String × PyVal))
  | positional (args : List PyVal)

/-- The argument set the dispatch site actually passes to the handler. -/
def handler_invocation (params : List HandlerParam) (excV ctxV : PyVal) :
    HandlerCall :=
  let hp := select_handler_params excV ctxV params
  if hp.isEmpty then .positional [excV, ctxV] else .kwargs hp

/-! ## `utilities.SortedList` and `Laconic.add_event_hook`

`SortedList.add` runs `bisect.insort(self.elems, (-priority, self.counter,
value))` and bumps the counter.  Tuples compare lexicographically and the
counters are pairwise distinct, so the third component (the hook callable)
is never compared.  `bisect.insort` places the new tuple after any equal
keys in the (always sorted) backing list, which on a sorted list coincides
with the linear right-insertion modelled here.  Hooks are identified by an
opaque id: the built-in auto-OPTIONS hook, or a numbered user hook.

`Laconic.add_event_hook` clamps the priority into
`[EVENT_PRIO_MIN, EVENT_PRIO_MAX] = [-1, 100]` before adding. -/

inductive HookId where
  | builtin
  | user (n : Nat)
  deriving DecidableEq

/-- Strict lexicographic order on the first two tuple components. -/
def keyLt (a b : Int × Nat × HookId) : Prop :=
  a.1 < b.1 ∨ (a.1 = b.1 ∧ a.2.1 < b.2.1)

instance (a b : Int × Nat × HookId) : Decidable (keyLt a b) :=
  inferInstanceAs (Decidable (a.1 < b.1 ∨ (a.1 = b.1 ∧ a.2.1 < b.2.1)))

def insort (x : Int × Nat × HookId) : List (Int × Nat × HookId) → List (Int × Nat × HookId)
  | [] => [x]
  | y :: ys => if keyLt x y then x :: y :: ys else y :: insort x ys

structure SortedList where
  elems : List (Int × Nat × HookId)
  counter : Nat
  deriving DecidableEq

def SortedList.add (sl : SortedList) (priority : Int) (value : HookId) : SortedList :=
  { elems := insort (-priority, sl.counter, value) sl.elems,
    counter := sl.counter + 1 }

def clampPriority (p : Int) : Int :=
  if p < -1 then -1 else if p > 100 then 100 else p

def add_event_hook (sl : SortedList) (priority : Int) (hook : HookId) : SortedList :=
  sl.add (clampPriority priority) hook

/-- Registering a list of `(priority, hook)` pairs one after the other. -/
def hookFoldFrom (sl : SortedList) (regs : List (Int × HookId)) : SortedList :=
  regs.foldl (fun s r => add_event_hook s r.1 r.2) sl

def hookFold (regs : List (Int × HookId)) : SortedList :=
  hookFoldFrom ⟨[], 0⟩ regs

/-- The tuples `(-clamped priority, counter, hook)` the additions create,
with counters numbered from `startCounter` in registration order. -/
def hookEntries (startCounter : Nat) : List (Int × HookId) → List (Int × Nat × HookId)
  | [] => []
  | r :: rs => (-(clampPriority r.1), startCounter, r.2) :: hookEntries (startCounter + 1) rs

/-- The hook registry of `on_endpoint_determined` as `Laconic.__init__`
builds it: the built-in auto-OPTIONS hook is added first with priority
`-1`, then the user registrations follow. -/
def endpointHooks (userRegs : List (Int × HookId)) : SortedList :=
  hookFoldFrom (add_event_hook ⟨[], 0⟩ (-1) .builtin) userRegs

/-- `__iter__`: the hook callables in backing-list order. -/
def SortedList.iterate (sl : SortedList) : List HookId :=
  sl.elems.map (fun e => e.2.2)

/-! ## `context.Context` lifecycle and `app._process_http_options`

The context is the mutable per-request object; its fields that the claims
touch are modelled explicitly, collaborator results (router outcome,
parameter binding, endpoint and handler invocation, the rendered error
response) are passed in as oracles, and a raising Python method becomes an
`Except.error` — the object's fields are unchanged in that case because
every transition method mutates only after the point that can raise.
Event hooks fired by `trigger_event` are modelled as effect-free; the one
built-in hook that does mutate the context is modelled separately as
`process_http_options`. -/

inductive CState where
  | created
  | initialized
  | requestParsed
  | endpointDetermined
  | responseGenerated
  | contextFinalized
  | contextError
  deriving DecidableEq

structure RespObj where
  body : String
  status : Option Int
  headers : List (String × String)
  deriving DecidableEq

/-- The values an endpoint or handler hands back: a plain (string-like)
object, an already-built `Response`, or a `(value, status_code)` pair. -/
inductive RVal where
  | vstr (s : String)
  | vresp (r : RespObj)
  | vtup (v : RVal) (code : Int)
  deriving DecidableEq

def pyStr : RVal → String
  | .vstr s => s
  | .vresp _ => "<Response>"
  | .vtup _ _ => "<tuple>"

structure Ctx where
  state : CState
  method : String
  path : String
  response : Option RVal
  response_status : Option Int
  requestSet : Bool
  endpointSet : Bool
  exceptionSet : Bool
  deriving DecidableEq

/-- `utilities.make_context_response`: unpack an optional
`(value, status)` pair, then wrap anything that is not already a
`Response` into `Response(str(value), status=response_status, headers)`.
Objects exposing `as_response` are out of the model. -/
def make_context_response (c : Ctx) (obj : RVal) (headers : List (String × String)) : Ctx :=
  let c1 := match obj with
    | .vtup v code => { c with response := some v, response_status := some code }
    | v => { c with response := some v }
  match c1.response with
  | some (.vresp _) => c1
  | some v => { c1 with response := some (.vresp ⟨pyStr v, c1.response_status, headers⟩) }
  | none => c1

/-- `Laconic._process_http_options`: the built-in `on_endpoint_determined`
hook.  Non-OPTIONS requests return immediately; an OPTIONS request builds
an empty-body response with the `Allow` header and forces the state to
`RESPONSE_GENERATED` — with no check whether a response already exists. -/
def process_http_options (endpoints : List RouterEndpoint) (c : Ctx) : Ctx :=
  if c.method ≠ "OPTIONS" then c
  else
    let avail := get_available_methods endpoints c.path
    let c1 := make_context_response c (.vstr "")
      [("Allow", String.intercalate "," avail)]
    { c1 with state := .responseGenerated }

inductive StepExc where
  | contextProcessing
  | routingFailure
  | bindingFailure
  | handlerFailure
  deriving DecidableEq

/-- `Context._init_context`. -/
def init_context_step (c : Ctx) : Except StepExc Ctx :=
  if c.state ≠ .created then .error .contextProcessing
  else .ok { c with state := .initialized }

/-- `Context._process_request`. -/
def process_request_step (c : Ctx) : Except StepExc Ctx :=
  if c.state ≠ .initialized then .error .contextProcessing
  else .ok { c with requestSet := true, state := .requestParsed }

/-- `Context._determine_endpoint`; `routerFails` abstracts
`router.determine_endpoint` raising (C1's routing failures). -/
def determine_endpoint_step (routerFails : Bool) (c : Ctx) : Except StepExc Ctx :=
  if c.state ≠ .requestParsed then .error .contextProcessing
  else if routerFails then .error .routingFailure
  else .ok { c with endpointSet := true, state := .endpointDetermined }

/-- `Context._dispatch_request`: parameter binding happens outside the
`try`, so a binding failure propagates; an endpoint exception searches for
a handler — a found handler produces the response (unless it raises in
turn), no handler records the wrapped error and moves to the error sink. -/
def dispatch_request_step (bindFails : Bool) (invokeRes : Except Unit RVal)
    (handlerLookup : Option (Except Unit RVal)) (c : Ctx) : Except StepExc Ctx :=
  if c.state ≠ .endpointDetermined then .error .contextProcessing
  else if bindFails then .error .bindingFailure
  else
    match invokeRes with
    | .ok v => .ok { make_context_response c v [] with state := .responseGenerated }
    | .error _ =>
      match handlerLookup with
      | some (.ok v) => .ok { make_context_response c v [] with state := .responseGenerated }
      | some (.error _) => .error .handlerFailure
      | none => .ok { c with exceptionSet := true, state := .contextError }

/-- `Context._process_error`; `rendered` is `self.exception.as_response(...)`. -/
def process_error_step (rendered : RespObj) (c : Ctx) : Except StepExc Ctx :=
  if c.state ≠ .contextError then .error .contextProcessing
  else .ok { c with response := some (.vresp rendered), state := .responseGenerated }

/-- `Context._finalize_context`. -/
def finalize_context_step (c : Ctx) : Except StepExc Ctx :=
  if c.state ≠ .responseGenerated then .error .contextProcessing
  else .ok { c with state := .contextFinalized }

/-- A context with a given state and otherwise fixed fields, used by the
concrete evaluations below. -/
def ctxAt (s : CState) : Ctx :=
  ⟨s, "GET", "/nope", none, none, false, false, false⟩

/-- A context that already carries a response produced by an earlier,
higher-priority `on_endpoint_determined` hook. -/
def ctxWithResp : Ctx :=
  ⟨.endpointDetermined, "OPTIONS", "/x", some (.vresp ⟨"earlier", some 200, []⟩),
    none, true, true, false⟩

/-! ### Ordering lemmas for the hook registry -/

lemma keyLt_trans {a b c : Int × Nat × HookId} (h1 : keyLt a b) (h2 : keyLt b c) :
    keyLt a c := by
  rcases h1 with h1 | ⟨h1, h1c⟩ <;> rcases h2 with h2 | ⟨h2, h2c⟩ <;>
    unfold keyLt <;> omega

lemma keyLt_total_of_ne {a b : Int × Nat × HookId} (hne : a.2.1 ≠ b.2.1)
    (h : ¬ keyLt a b) : keyLt b a := by
  unfold keyLt at h ⊢; omega

lemma insort_perm (x : Int × Nat × HookId) (l : List (Int × Nat × HookId)) :
    (insort x l).Perm (x :: l) := by
  induction l with
  | nil => exact List.Perm.refl _
  | cons y ys ih =>
    by_cases h : keyLt x y
    · simp [insort, h]
    · simpa [insort, h] using (ih.cons y).trans (List.Perm.swap x y ys)

lemma insort_sorted (x : Int × Nat × HookId) (l : List (Int × Nat × HookId))
    (hs : l.Pairwise keyLt) (hc : ∀ y ∈ l, x.2.1 ≠ y.2.1) :
    (insort x l).Pairwise keyLt := by
  induction l with
  | nil => simp [insort]
  | cons y ys ih =>
    rcases List.pairwise_cons.mp hs with ⟨hy, hys⟩
    by_cases h : keyLt x y
    · rw [insort, if_pos h]
      refine List.pairwise_cons.mpr ⟨?_, hs⟩
      intro z hz
      rcases List.mem_cons.mp hz with rfl | hz
      · exact h
      · exact keyLt_trans h (hy z hz)
    · rw [insort, if_neg h]
      have hyx : keyLt y x := keyLt_total_of_ne (hc y (List.mem_cons_self y ys)) h
      refine List.pairwise_cons.mpr ⟨?_, ih hys (fun z hz => hc z (List.mem_cons_of_mem y hz))⟩
      intro z hz
      have hz2 : z ∈ x :: ys := (insort_perm x ys).mem_iff.mp hz
      rcases List.mem_cons.mp hz2 with rfl | hz2
      · exact hyx
      · exact hy z hz2

/-- Each `add_event_hook` pushes one clamped, counter-stamped tuple into
the sorted backing list; the fold therefore keeps the list sorted and its
contents a permutation of the accumulated entries. -/
lemma hookFoldFrom_spec (regs : List (Int × HookId)) :
    ∀ sl : SortedList, sl.elems.Pairwise keyLt →
      (∀ y ∈ sl.elems, y.2.1 < sl.counter) →
      (hookFoldFrom sl regs).elems.Perm (sl.elems ++ hookEntries sl.counter regs)
      ∧ (hookFoldFrom sl regs).elems.Pairwise keyLt
      ∧ (∀ y ∈ (hookFoldFrom sl regs).elems, y.2.1 < (hookFoldFrom sl regs).counter) := by
  induction regs with
  | nil => intro sl hs hc; simp only [hookFoldFrom, List.foldl_nil, hookEntries,
      List.append_nil]; exact ⟨List.Perm.refl _, hs, hc⟩
  | cons r rs ih =>
    intro sl hs hc
    have hstep : hookFoldFrom sl (r :: rs)
        = hookFoldFrom (add_event_hook sl r.1 r.2) rs := rfl
    set e : Int × Nat × HookId := (-(clampPriority r.1), sl.counter, r.2) with he
    have hsl' : (add_event_hook sl r.1 r.2)
        = ⟨insort e sl.elems, sl.counter + 1⟩ := rfl
    have hne : ∀ y ∈ sl.elems, e.2.1 ≠ y.2.1 := by
      intro y hy hEq
      have h2 := hc y hy
      rw [← hEq] at h2
      simp only [he] at h2
      exact absurd h2 (lt_irrefl _)
    have hs' : (insort e sl.elems).Pairwise keyLt := insort_sorted e sl.elems hs hne
    have hc' : ∀ y ∈ insort e sl.elems, y.2.1 < sl.counter + 1 := by
      intro y hy
      rcases List.mem_cons.mp ((insort_perm e sl.elems).mem_iff.mp hy) with rfl | hy2
      · exact Nat.lt_succ_self _
      · exact Nat.lt_succ_of_lt (hc y hy2)
    have hrec := ih (add_event_hook sl r.1 r.2) (by rw [hsl']; exact hs')
      (by rw [hsl']; exact hc')
    rw [hstep]
    refine ⟨?_, hrec.2.1, hrec.2.2⟩
    have h1 := hrec.1
    have h2 : (hookFoldFrom (add_event_hook sl r.1 r.2) rs).elems.Perm
        ((e :: sl.elems) ++ hookEntries (sl.counter + 1) rs) :=
      h1.trans ((insort_perm e sl.elems).append_right _)
    exact h2.trans List.perm_middle.symm

lemma mem_hookEntries (regs : List (Int × HookId)) :
    ∀ (start : Nat) (p : Int) (u : HookId), (p, u) ∈ regs →
      ∃ c, start ≤ c ∧ (-(clampPriority p), c, u) ∈ hookEntries start regs := by
  induction regs with
  | nil => intro start p u h; exact absurd h (List.not_mem_nil _)
  | cons r rs ih =>
    intro start p u h
    rcases List.mem_cons.mp h with rfl | h2
    · exact ⟨start, le_refl _, List.mem_cons_self _ _⟩
    · rcases ih (start + 1) p u h2 with ⟨c, hc1, hc2⟩
      exact ⟨c, by omega, List.mem_cons_of_mem _ hc2⟩

/-! ## `utilities.exc_type_compare` and the exception-handler registry

A Python exception class is modelled by its name and its method resolution
order (the list of ancestor class names, itself first); `issubclass t1 t2`
is membership of `t2`'s name in `t1`'s MRO, `len(t.__mro__)` is the MRO
length, and `isinstance(exc, t)` is membership of `t`'s name in the MRO of
the exception's class.

`ExceptionHandler.__lt__` delegates to `exc_type_compare`;
`Laconic.add_exception_handler` appends the new handler and calls
`list.sort()`.  For the fewer-than-64-element lists a handler registry
holds, CPython's `list.sort` is exactly: find the initial run (an
ascending run extended while `not (next < cur)`, or a strictly descending
run extended while `next < cur` and then reversed), then binary-insert the
remaining elements one by one into the sorted prefix (`binarysort`:
bisection on `pivot < a[mid]`, stable rightmost insertion).  `count_run`,
`binsearchAux`, `binarysort` and `pysort` below transcribe that algorithm.

Dispatch walks the sorted registry and picks the first handler whose type
the exception is an instance of. -/

structure PyType where
  name : String
  mro : List String
  deriving DecidableEq

def issubclass (t1 t2 : PyType) : Bool :=
  t1.mro.contains t2.name

def exc_type_compare (t1 t2 : PyType) : Int :=
  if issubclass t1 t2 then -1
  else if issubclass t2 t1 then 1
  else
    if t1.mro.length = t2.mro.length then
      (if t1.name < t2.name then -1 else 1)
    else if t1.mro.length < t2.mro.length then -1 else 1

structure ExcHandler where
  exc_type : PyType
  hid : Nat
  deriving DecidableEq

/-- `ExceptionHandler.__lt__`. -/
def handlerLt (h1 h2 : ExcHandler) : Bool :=
  decide (exc_type_compare h1.exc_type h2.exc_type < 0)

/-- Extend an ascending run: continue while `not (next < cur)`. -/
def ascRun {α : Type} (lt : α → α → Bool) : α → List α → List α × List α
  | x, [] => ([x], [])
  | x, y :: ys =>
    if lt y x then ([x], y :: ys)
    else
      let p := ascRun lt y ys
      (x :: p.1, p.2)

/-- Extend a strictly descending run: continue while `next < cur`. -/
def descRun {α : Type} (lt : α → α → Bool) : α → List α → List α × List α
  | x, [] => ([x], [])
  | x, y :: ys =>
    if lt y x then
      let p := descRun lt y ys
      (x :: p.1, p.2)
    else ([x], y :: ys)

/-- CPython `count_run`: the initial run (descending runs are reversed to
ascending) and the remaining elements. -/
def count_run {α : Type} (lt : α → α → Bool) : List α → List α × List α
  | [] => ([], [])
  | [x] => ([x], [])
  | x :: y :: ys =>
    if lt y x then
      let p := descRun lt y ys
      ((x :: p.1).reverse, p.2)
    else
      let p := ascRun lt y ys
      (x :: p.1, p.2)

/-- CPython `binarysort`'s bisection: find the insertion slot for `x` in
`xs` between `l` and `r`, moving left exactly when `x < xs[mid]` (stable,
rightmost slot). -/
def binsearchAux {α : Type} (lt : α → α → Bool) (x : α) (xs : List α) (l r : Nat) : Nat :=
  if h : l < r then
    let m := (l + r) / 2
    if lt x (xs.getD m x) then binsearchAux lt x xs l m
    else binsearchAux lt x xs (m + 1) r
  else l
  termination_by r - l
  decreasing_by
    · omega
    · omega

/-- CPython `binarysort`: insert the pending elements one by one into the
sorted prefix. -/
def binarysort {α : Type} (lt : α → α → Bool) : List α → List α → List α
  | srt, [] => srt
  | srt, x :: rest =>
      binarysort lt (srt.insertIdx (binsearchAux lt x srt 0 srt.length) x) rest

/-- `list.sort()` (CPython, list shorter than 64 elements): a single
`count_run` followed by `binarysort` over the rest. -/
def pysort {α : Type} (lt : α → α → Bool) (l : List α) : List α :=
  match l with
  | [] => []
  | [x] => [x]
  | _ =>
    let p := count_run lt l
    binarysort lt p.1 p.2

/-- `Laconic.add_exception_handler`: append, then sort with `__lt__`. -/
def add_exception_handler (hs : List ExcHandler) (h : ExcHandler) : List ExcHandler :=
  pysort handlerLt (hs ++ [h])

/-- Registering a sequence of handlers one after the other. -/
def registerHandlers (regs : List ExcHandler) : List ExcHandler :=
  regs.foldl add_exception_handler []

/-- `isinstance(exc, t)` for an exception whose class has MRO `excMro`. -/
def isinstanceOf (excMro : List String) (t : PyType) : Bool :=
  excMro.contains t.name

/-- The dispatch loop of `Context._dispatch_request`: the first handler in
registry order whose type matches the exception. -/
def select_exc_handler (hs : List ExcHandler) (excMro : List String) : Option ExcHandler :=
  hs.find? (fun h => isinstanceOf excMro h.exc_type)

/-! Concrete exception classes used by the C2 counterexample: `tZ` is a
base (MRO depth 4), `tY` a sub-subclass of it (depth 6), `tX` an unrelated
class of depth 5, and the raised exception's class multiply inherits from
`tY` and `tX`, so `tX`, `tY` and `tZ` all match it. -/

def tZ : PyType := ⟨"Zb", ["Zb", "Exception", "BaseException", "object"]⟩

def tY : PyType := ⟨"Yc", ["Yc", "Ym", "Zb", "Exception", "BaseException", "object"]⟩

def tX : PyType := ⟨"Xa", ["Xa", "Xm", "Exception", "BaseException", "object"]⟩

def emroE : List String :=
  ["Ee", "Yc", "Ym", "Xa", "Xm", "Zb", "Exception", "BaseException", "object"]

def hX : ExcHandler := ⟨tX, 1⟩

def hY : ExcHandler := ⟨tY, 2⟩

def hZ : ExcHandler := ⟨tZ, 3⟩

/-! ### Correctness of the modelled `list.sort` under a strict chain order

The lemmas below establish that `pysort` returns a sorted permutation of
its input whenever the comparison behaves as a strict total order on the
elements involved — the situation of the amended C2, where all registered
exception types are pairwise related by subclassing.  `P` delimits the
universe of elements the order hypotheses speak about. -/

lemma ascRun_spec {α : Type} (lt : α → α → Bool) :
    ∀ (ys : List α) (x : α), ∃ t rest,
      ascRun lt x ys = (x :: t, rest)
      ∧ x :: ys = (x :: t) ++ rest
      ∧ List.Chain' (fun a b => lt b a = false) (x :: t) := by
  intro ys
  induction ys with
  | nil => exact fun x => ⟨[], [], rfl, rfl, List.chain'_singleton x⟩
  | cons y ys ih =>
    intro x
    by_cases h : lt y x = true
    · exact ⟨[], y :: ys, by simp [ascRun, h], rfl, List.chain'_singleton x⟩
    · have hb : lt y x = false := by rwa [Bool.not_eq_true] at h
      obtain ⟨t, rest, heq, happ, hch⟩ := ih y
      refine ⟨y :: t, rest, ?_, ?_, ?_⟩
      · simp [ascRun, hb, heq]
      · rw [List.cons_append]
        exact congrArg (x :: ·) happ
      · exact List.chain'_cons.mpr ⟨hb, hch⟩

lemma descRun_spec {α : Type} (lt : α → α → Bool) :
    ∀ (ys : List α) (x : α), ∃ t rest,
      descRun lt x ys = (x :: t, rest)
      ∧ x :: ys = (x :: t) ++ rest
      ∧ List.Chain' (fun a b => lt b a = true) (x :: t) := by
  intro ys
  induction ys with
  | nil => exact fun x => ⟨[], [], rfl, rfl, List.chain'_singleton x⟩
  | cons y ys ih =>
    intro x
    by_cases h : lt y x = true
    · obtain ⟨t, rest, heq, happ, hch⟩ := ih y
      refine ⟨y :: t, rest, ?_, ?_, ?_⟩
      · simp [descRun, h, heq]
      · rw [List.cons_append]
        exact congrArg (x :: ·) happ
      · exact List.chain'_cons.mpr ⟨h, hch⟩
    · exact ⟨[], y :: ys, by simp [descRun, h], rfl, List.chain'_singleton x⟩

lemma chain_false_to_lt {α : Type} (lt : α → α → Bool) (P : α → Prop)
    (hTot : ∀ a b, P a → P b → a ≠ b → (lt a b = true ∨ lt b a = true)) :
    ∀ (l : List α), l.Nodup → (∀ a ∈ l, P a) →
      List.Chain' (fun a b => lt b a = false) l →
      List.Chain' (fun a b => lt a b = true) l := by
  intro l
  induction l with
  | nil => intro _ _ _; exact List.chain'_nil
  | cons a t ih =>
    intro hnd hP hch
    cases t with
    | nil => exact List.chain'_singleton a
    | cons b t2 =>
      rcases List.chain'_cons.mp hch with ⟨hba, hrest⟩
      have hne : a ≠ b := by
        intro hab
        exact (List.nodup_cons.mp hnd).1 (hab ▸ List.mem_cons_self b t2)
      have hab : lt a b = true := by
        rcases hTot a b (hP a (List.mem_cons_self _ _))
            (hP b (List.mem_cons_of_mem _ (List.mem_cons_self _ _))) hne with h | h
        · exact h
        · rw [hba] at h
          exact absurd h (by simp)
      exact List.chain'_cons.mpr ⟨hab, ih (List.nodup_cons.mp hnd).2
        (fun z hz => hP z (List.mem_cons_of_mem _ hz)) hrest⟩

lemma chain_lt_pairwise {α : Type} (lt : α → α → Bool) (P : α → Prop)
    (hTrans : ∀ a b c, P a → P b → P c → a ≠ b → b ≠ c → a ≠ c →
      lt a b = true → lt b c = true → lt a c = true) :
    ∀ (l : List α), l.Nodup → (∀ a ∈ l, P a) →
      List.Chain' (fun a b => lt a b = true) l →
      l.Pairwise (fun a b => lt a b = true) := by
  intro l
  induction l with
  | nil => intro _ _ _; exact List.Pairwise.nil
  | cons a t ih =>
    intro hnd hP hch
    cases t with
    | nil => simp
    | cons b t2 =>
      rcases List.chain'_cons.mp hch with ⟨hab, hrest⟩
      have hpt : (b :: t2).Pairwise (fun a b => lt a b = true) :=
        ih (List.nodup_cons.mp hnd).2
          (fun z hz => hP z (List.mem_cons_of_mem _ hz)) hrest
      refine List.pairwise_cons.mpr ⟨?_, hpt⟩
      intro z hz
      rcases List.mem_cons.mp hz with rfl | hz2
      · exact hab
      · have hbz : lt b z = true := (List.pairwise_cons.mp hpt).1 z hz2
        have hPa : P a := hP a (List.mem_cons_self _ _)
        have hPb : P b := hP b (List.mem_cons_of_mem _ (List.mem_cons_self _ _))
        have hPz : P z := hP z (List.mem_cons_of_mem _ (List.mem_cons_of_mem _ hz2))
        have hnab : a ≠ b := by
          intro h
          exact (List.nodup_cons.mp hnd).1 (h ▸ List.mem_cons_self b t2)
        have hnbz : b ≠ z := by
          intro h
          exact (List.nodup_cons.mp (List.nodup_cons.mp hnd).2).1 (h ▸ hz2)
        have hnaz : a ≠ z := by
          intro h
          exact (List.nodup_cons.mp hnd).1 (h ▸ List.mem_cons_of_mem _ hz2)
        exact hTrans a b z hPa hPb hPz hnab hnbz hnaz hab hbz

lemma count_run_spec {α : Type} (lt : α → α → Bool) (P : α → Prop)
    (hTot : ∀ a b, P a → P b → a ≠ b → (lt a b = true ∨ lt b a = true))
    (hTrans : ∀ a b c, P a → P b → P c → a ≠ b → b ≠ c → a ≠ c →
      lt a b = true → lt b c = true → lt a c = true)
    (l : List α) (hnd : l.Nodup) (hP : ∀ a ∈ l, P a) :
    ((count_run lt l).1 ++ (count_run lt l).2).Perm l
    ∧ (count_run lt l).1.Pairwise (fun a b => lt a b = true) := by
  match l with
  | [] => exact ⟨List.Perm.refl _, List.Pairwise.nil⟩
  | [x] => exact ⟨List.Perm.refl _, List.pairwise_singleton _ x⟩
  | x :: y :: ys =>
    by_cases hd : lt y x = true
    · obtain ⟨t, rest, heq, happ, hch⟩ := descRun_spec lt ys y
      have hcrun : count_run lt (x :: y :: ys)
          = ((x :: y :: t).reverse, rest) := by
        simp [count_run, hd, heq]
      have hLeq : x :: y :: ys = (x :: y :: t) ++ rest := by
        rw [List.cons_append]
        exact congrArg (x :: ·) happ
      rw [hcrun]
      have hLnd : ((x :: y :: t) ++ rest).Nodup := by rw [← hLeq]; exact hnd
      constructor
      · have hp1 : ((x :: y :: t).reverse ++ rest).Perm ((x :: y :: t) ++ rest) :=
          (List.reverse_perm _).append_right rest
        rw [← hLeq] at hp1
        exact hp1
      · have hchain : List.Chain' (fun a b => lt b a = true) (x :: y :: t) :=
          List.chain'_cons.mpr ⟨hd, hch⟩
        have hchainrev : List.Chain' (fun a b => lt a b = true) (x :: y :: t).reverse :=
          List.chain'_reverse.mpr hchain
        refine chain_lt_pairwise lt P hTrans _ ?_ ?_ hchainrev
        · rw [List.nodup_reverse]
          exact hLnd.of_append_left
        · intro a ha
          rw [List.mem_reverse] at ha
          exact hP a (by rw [hLeq]; exact List.mem_append_left rest ha)
    · have hb : lt y x = false := by rwa [Bool.not_eq_true] at hd
      obtain ⟨t, rest, heq, happ, hch⟩ := ascRun_spec lt ys y
      have hcrun : count_run lt (x :: y :: ys) = (x :: y :: t, rest) := by
        simp [count_run, hb, heq]
      have hLeq : x :: y :: ys = (x :: y :: t) ++ rest := by
        rw [List.cons_append]
        exact congrArg (x :: ·) happ
      rw [hcrun]
      have hLnd : ((x :: y :: t) ++ rest).Nodup := by rw [← hLeq]; exact hnd
      constructor
      · rw [← hLeq]
      · have hchain : List.Chain' (fun a b => lt b a = false) (x :: y :: t) :=
          List.chain'_cons.mpr ⟨hb, hch⟩
        have hsub : ∀ a ∈ x :: y :: t, P a := by
          intro a ha
          exact hP a (by rw [hLeq]; exact List.mem_append_left rest ha)
        have hchainlt := chain_false_to_lt lt P hTot _ hLnd.of_append_left hsub hchain
        exact chain_lt_pairwise lt P hTrans _ hLnd.of_append_left hsub hchainlt

lemma binsearchAux_eq {α : Type} (lt : α → α → Bool) (x : α) (xs : List α)
    (l r : Nat) :
    binsearchAux lt x xs l r =
      if l < r then
        (if lt x (xs.getD ((l + r) / 2) x) then binsearchAux lt x xs l ((l + r) / 2)
         else binsearchAux lt x xs ((l + r) / 2 + 1) r)
      else l := by
  rw [binsearchAux]
  rw [dite_eq_ite]

lemma binsearchAux_spec {α : Type} (lt : α → α → Bool) (x : α) (xs : List α)
    (hmono : ∀ i j, i ≤ j → j < xs.length →
      lt x (xs.getD i x) = true → lt x (xs.getD j x) = true) :
    ∀ (n l r : Nat), r - l = n → l ≤ r → r ≤ xs.length →
      (∀ i, i < l → lt x (xs.getD i x) = false) →
      (∀ i, r ≤ i → i < xs.length → lt x (xs.getD i x) = true) →
      binsearchAux lt x xs l r ≤ xs.length
      ∧ (∀ i, i < binsearchAux lt x xs l r → lt x (xs.getD i x) = false)
      ∧ (∀ i, binsearchAux lt x xs l r ≤ i → i < xs.length →
          lt x (xs.getD i x) = true) := by
  intro n
  induction n using Nat.strong_induction_on with
  | _ n ih =>
    intro l r hn hlr hrlen hlow hhigh
    rw [binsearchAux_eq]
    by_cases hcond : l < r
    · rw [if_pos hcond]
      have hmlow : l ≤ (l + r) / 2 := by omega
      have hmhigh : (l + r) / 2 < r := by omega
      by_cases hmid : lt x (xs.getD ((l + r) / 2) x) = true
      · rw [if_pos hmid]
        refine ih ((l + r) / 2 - l) (by omega) l ((l + r) / 2) (by omega)
          hmlow (by omega) hlow ?_
        intro i hi hilen
        exact hmono ((l + r) / 2) i hi hilen hmid
      · have hmidf : lt x (xs.getD ((l + r) / 2) x) = false := by
          rwa [Bool.not_eq_true] at hmid
        rw [if_neg (by rw [hmidf]; simp)]
        refine ih (r - ((l + r) / 2 + 1)) (by omega) ((l + r) / 2 + 1) r rfl
          (by omega) hrlen ?_ hhigh
        intro i hi
        cases hlt : lt x (xs.getD i x) with
        | false => rfl
        | true =>
          have := hmono i ((l + r) / 2) (by omega) (by omega) hlt
          rw [hmidf] at this
          exact absurd this (by simp)
    · rw [if_neg hcond]
      refine ⟨by omega, hlow, ?_⟩
      intro i hi hilen
      exact hhigh i (by omega) hilen

lemma insertIdx_perm_cons {α : Type} (x : α) :
    ∀ (l : List α) (p : Nat), p ≤ l.length → (l.insertIdx p x).Perm (x :: l) := by
  intro l
  induction l with
  | nil =>
    intro p hp
    have : p = 0 := by simpa using hp
    subst this
    exact List.Perm.refl _
  | cons s l2 ih =>
    intro p hp
    cases p with
    | zero => exact List.Perm.refl _
    | succ p2 =>
      rw [List.insertIdx_succ_cons]
      exact ((ih p2 (by simpa using hp)).cons s).trans (List.Perm.swap x s l2)

lemma insertIdx_sorted {α : Type} (lt : α → α → Bool) (P : α → Prop)
    (hTot : ∀ a b, P a → P b → a ≠ b → (lt a b = true ∨ lt b a = true)) :
    ∀ (srt : List α) (p : Nat) (x : α),
      p ≤ srt.length →
      (∀ i, i < p → lt x (srt.getD i x) = false) →
      (∀ i, p ≤ i → i < srt.length → lt x (srt.getD i x) = true) →
      srt.Pairwise (fun a b => lt a b = true) →
      x ∉ srt → P x → (∀ a ∈ srt, P a) →
      (srt.insertIdx p x).Pairwise (fun a b => lt a b = true) := by
  intro srt
  induction srt with
  | nil =>
    intro p x hp _ _ _ _ _ _
    have : p = 0 := by simpa using hp
    subst this
    simp
  | cons s srt2 ih =>
    intro p x hp hlow hhigh hsort hxmem hPx hPs
    cases p with
    | zero =>
      rw [List.insertIdx_zero]
      refine List.pairwise_cons.mpr ⟨?_, hsort⟩
      intro z hz
      obtain ⟨i, hi, hzi⟩ := List.mem_iff_getElem.mp hz
      have := hhigh i (Nat.zero_le i) hi
      rwa [List.getD_eq_getElem _ _ hi, hzi] at this
    | succ p2 =>
      rw [List.insertIdx_succ_cons]
      have hp2 : p2 ≤ srt2.length := by simpa using hp
      refine List.pairwise_cons.mpr ⟨?_, ?_⟩
      · intro z hz
        rcases (List.mem_insertIdx hp2).mp hz with rfl | hz2
        · have h0 : lt z s = false := by
            have := hlow 0 (Nat.succ_pos p2)
            simpa using this
          have hne : z ≠ s := by
            intro h
            exact hxmem (h ▸ List.mem_cons_self s srt2)
          rcases hTot z s hPx (hPs s (List.mem_cons_self _ _)) hne with h | h
          · rw [h0] at h
            exact absurd h (by simp)
          · exact h
        · exact (List.pairwise_cons.mp hsort).1 z hz2
      · refine ih p2 x hp2 ?_ ?_ (List.pairwise_cons.mp hsort).2
          (fun h => hxmem (List.mem_cons_of_mem s h)) hPx
          (fun a ha => hPs a (List.mem_cons_of_mem s ha))
        · intro i hi
          have := hlow (i + 1) (by omega)
          simpa using this
        · intro i hpi hilen
          have := hhigh (i + 1) (by omega) (by simpa using Nat.succ_lt_succ hilen)
          simpa using this

lemma binarysort_spec {α : Type} [DecidableEq α] (lt : α → α → Bool) (P : α → Prop)
    (hTot : ∀ a b, P a → P b → a ≠ b → (lt a b = true ∨ lt b a = true))
    (hTrans : ∀ a b c, P a → P b → P c → a ≠ b → b ≠ c → a ≠ c →
      lt a b = true → lt b c = true → lt a c = true) :
    ∀ (rest srt : List α),
      srt.Pairwise (fun a b => lt a b = true) →
      (srt ++ rest).Nodup → (∀ a ∈ srt ++ rest, P a) →
      (binarysort lt srt rest).Pairwise (fun a b => lt a b = true)
      ∧ (binarysort lt srt rest).Perm (srt ++ rest) := by
  intro rest
  induction rest with
  | nil =>
    intro srt hs _ _
    rw [binarysort]
    exact ⟨hs, by simp⟩
  | cons x rest2 ih =>
    intro srt hs hnd hP
    have hnds : srt.Nodup := hnd.of_append_left
    have hdisj : x ∉ srt := by
      rcases List.nodup_append.mp hnd with ⟨_, _, hdis⟩
      intro hx
      exact hdis hx (List.mem_cons_self x rest2)
    have hPx : P x := hP x (List.mem_append_right srt (List.mem_cons_self _ _))
    have hPsrt : ∀ a ∈ srt, P a := fun a ha => hP a (List.mem_append_left _ ha)
    have hmono : ∀ i j, i ≤ j → j < srt.length →
        lt x (srt.getD i x) = true → lt x (srt.getD j x) = true := by
      intro i j hij hj hlt
      rcases Nat.eq_or_lt_of_le hij with rfl | hij2
      · exact hlt
      · have hi : i < srt.length := lt_trans hij2 hj
        have hij3 : lt (srt.getD i x) (srt.getD j x) = true := by
          rw [List.getD_eq_getElem _ _ hi, List.getD_eq_getElem _ _ hj]
          exact List.pairwise_iff_getElem.mp hs i j hi hj hij2
        have hmema : srt.getD i x ∈ srt := by
          rw [List.getD_eq_getElem _ _ hi]
          exact List.getElem_mem hi
        have hmemb : srt.getD j x ∈ srt := by
          rw [List.getD_eq_getElem _ _ hj]
          exact List.getElem_mem hj
        have hne1 : x ≠ srt.getD i x := fun h => hdisj (h ▸ hmema)
        have hne2 : srt.getD i x ≠ srt.getD j x := by
          rw [List.getD_eq_getElem _ _ hi, List.getD_eq_getElem _ _ hj]
          intro h
          rw [List.Nodup.getElem_inj_iff hnds] at h
          omega
        have hne3 : x ≠ srt.getD j x := fun h => hdisj (h ▸ hmemb)
        exact hTrans x (srt.getD i x) (srt.getD j x) hPx (hPsrt _ hmema)
          (hPsrt _ hmemb) hne1 hne2 hne3 hlt hij3
    obtain ⟨hple, hlow, hhigh⟩ := binsearchAux_spec lt x srt hmono
      (srt.length - 0) 0 srt.length rfl (Nat.zero_le _) (le_refl _)
      (fun i hi => absurd hi (Nat.not_lt_zero i))
      (fun i hi hilen => absurd hilen (by omega))
    set pos := binsearchAux lt x srt 0 srt.length with hpos
    have hsorted2 : (srt.insertIdx pos x).Pairwise (fun a b => lt a b = true) :=
      insertIdx_sorted lt P hTot srt pos x hple hlow hhigh hs hdisj hPx hPsrt
    have hperm1 : (srt.insertIdx pos x).Perm (x :: srt) :=
      insertIdx_perm_cons x srt pos hple
    have hpermfull : (srt.insertIdx pos x ++ rest2).Perm (srt ++ x :: rest2) := by
      refine (hperm1.append_right rest2).trans ?_
      exact List.perm_middle.symm
    have hnd2 : (srt.insertIdx pos x ++ rest2).Nodup :=
      hpermfull.nodup_iff.mpr hnd
    have hP2 : ∀ a ∈ srt.insertIdx pos x ++ rest2, P a := by
      intro a ha
      exact hP a (hpermfull.subset ha)
    obtain ⟨hres_sorted, hres_perm⟩ := ih (srt.insertIdx pos x) hsorted2 hnd2 hP2
    have hstep : binarysort lt srt (x :: rest2)
        = binarysort lt (srt.insertIdx pos x) rest2 := by
      rw [binarysort, hpos]
    rw [hstep]
    exact ⟨hres_sorted, hres_perm.trans hpermfull⟩

lemma pysort_spec {α : Type} [DecidableEq α] (lt : α → α → Bool) (P : α → Prop)
    (hTot : ∀ a b, P a → P b → a ≠ b → (lt a b = true ∨ lt b a = true))
    (hTrans : ∀ a b c, P a → P b → P c → a ≠ b → b ≠ c → a ≠ c →
      lt a b = true → lt b c = true → lt a c = true)
    (l : List α) (hnd : l.Nodup) (hP : ∀ a ∈ l, P a) :
    (pysort lt l).Pairwise (fun a b => lt a b = true) ∧ (pysort lt l).Perm l := by
  match l with
  | [] => exact ⟨List.Pairwise.nil, List.Perm.refl _⟩
  | [x] => exact ⟨List.pairwise_singleton _ x, List.Perm.refl _⟩
  | x :: y :: ys =>
    obtain ⟨hcperm, hcsort⟩ := count_run_spec lt P hTot hTrans (x :: y :: ys) hnd hP
    have hpy : pysort lt (x :: y :: ys)
        = binarysort lt (count_run lt (x :: y :: ys)).1
            (count_run lt (x :: y :: ys)).2 := rfl
    have hnd2 : ((count_run lt (x :: y :: ys)).1
        ++ (count_run lt (x :: y :: ys)).2).Nodup := hcperm.nodup_iff.mpr hnd
    have hP2 : ∀ a ∈ (count_run lt (x :: y :: ys)).1
        ++ (count_run lt (x :: y :: ys)).2, P a :=
      fun a ha => hP a (hcperm.subset ha)
    obtain ⟨h1, h2⟩ := binarysort_spec lt P hTot hTrans
      (count_run lt (x :: y :: ys)).2 (count_run lt (x :: y :: ys)).1
      hcsort hnd2 hP2
    rw [hpy]
    exact ⟨h1, h2.trans hcperm⟩

/-! ### The chain hypotheses of the amended C2

`ChainHyps regs` states that the registered handler types are pairwise
distinct and pairwise related by subclassing and that `issubclass` behaves
like Python's on them (reflexive, antisymmetric, transitive) — the
"single inheritance chain" situation in which the handler registry's
comparison is a strict total order. -/

structure ChainHyps (regs : List ExcHandler) : Prop where
  nodupTy : (regs.map (fun h => h.exc_type)).Nodup
  selfSub : ∀ h ∈ regs, issubclass h.exc_type h.exc_type = true
  related : ∀ h1 ∈ regs, ∀ h2 ∈ regs,
    issubclass h1.exc_type h2.exc_type = true
    ∨ issubclass h2.exc_type h1.exc_type = true
  subAntisymm : ∀ h1 ∈ regs, ∀ h2 ∈ regs,
    issubclass h1.exc_type h2.exc_type = true →
    issubclass h2.exc_type h1.exc_type = true → h1.exc_type = h2.exc_type
  subTrans : ∀ h1 ∈ regs, ∀ h2 ∈ regs, ∀ h3 ∈ regs,
    issubclass h1.exc_type h2.exc_type = true →
    issubclass h2.exc_type h3.exc_type = true →
    issubclass h1.exc_type h3.exc_type = true

lemma ChainHyps.tyInj {regs : List ExcHandler} (CH : ChainHyps regs) :
    ∀ h1 ∈ regs, ∀ h2 ∈ regs, h1.exc_type = h2.exc_type → h1 = h2 :=
  List.inj_on_of_nodup_map CH.nodupTy

lemma ChainHyps.regsNodup {regs : List ExcHandler} (CH : ChainHyps regs) :
    regs.Nodup :=
  List.Nodup.of_map _ CH.nodupTy

lemma ChainHyps.lt_iff {regs : List ExcHandler} (CH : ChainHyps regs)
    (h1 h2 : ExcHandler) (m1 : h1 ∈ regs) (m2 : h2 ∈ regs) (_hne : h1 ≠ h2) :
    (handlerLt h1 h2 = true ↔ issubclass h1.exc_type h2.exc_type = true) := by
  constructor
  · intro hlt
    by_cases hsub : issubclass h1.exc_type h2.exc_type = true
    · exact hsub
    · exfalso
      have hsub2 : issubclass h2.exc_type h1.exc_type = true := by
        rcases CH.related h1 m1 h2 m2 with h | h
        · exact absurd h hsub
        · exact h
      have hcomp : exc_type_compare h1.exc_type h2.exc_type = 1 := by
        unfold exc_type_compare
        rw [if_neg hsub, if_pos hsub2]
      unfold handlerLt at hlt
      rw [hcomp] at hlt
      exact absurd (of_decide_eq_true hlt) (by omega)
  · intro hsub
    have hcomp : exc_type_compare h1.exc_type h2.exc_type = -1 := by
      unfold exc_type_compare
      rw [if_pos hsub]
    unfold handlerLt
    rw [hcomp]
    decide

lemma ChainHyps.ltTot {regs : List ExcHandler} (CH : ChainHyps regs) :
    ∀ a b : ExcHandler, a ∈ regs → b ∈ regs → a ≠ b →
      (handlerLt a b = true ∨ handlerLt b a = true) := by
  intro a b ma mb hne
  rcases CH.related a ma b mb with h | h
  · exact Or.inl ((CH.lt_iff a b ma mb hne).mpr h)
  · exact Or.inr ((CH.lt_iff b a mb ma (Ne.symm hne)).mpr h)

lemma ChainHyps.ltTrans {regs : List ExcHandler} (CH : ChainHyps regs) :
    ∀ a b c : ExcHandler, a ∈ regs → b ∈ regs → c ∈ regs →
      a ≠ b → b ≠ c → a ≠ c →
      handlerLt a b = true → handlerLt b c = true → handlerLt a c = true := by
  intro a b c ma mb mc hab hbc hac h1 h2
  refine (CH.lt_iff a c ma mc hac).mpr ?_
  exact CH.subTrans a ma b mb c mc
    ((CH.lt_iff a b ma mb hab).mp h1) ((CH.lt_iff b c mb mc hbc).mp h2)

lemma chainHyps_perm {regs regs2 : List ExcHandler} (CH : ChainHyps regs)
    (hp : regs2.Perm regs) : ChainHyps regs2 :=
  ⟨((hp.map (fun h => h.exc_type)).nodup_iff).mpr CH.nodupTy,
   fun h hm => CH.selfSub h (hp.subset hm),
   fun h1 m1 h2 m2 => CH.related h1 (hp.subset m1) h2 (hp.subset m2),
   fun h1 m1 h2 m2 => CH.subAntisymm h1 (hp.subset m1) h2 (hp.subset m2),
   fun h1 m1 h2 m2 h3 m3 =>
     CH.subTrans h1 (hp.subset m1) h2 (hp.subset m2) h3 (hp.subset m3)⟩

/-- Registering handlers one by one (append + `list.sort` each time) keeps
the registry a sorted permutation of the registered handlers, when the
registered types form a chain. -/
lemma registerFold_spec (regs : List ExcHandler) (CH : ChainHyps regs) :
    ∀ (rs acc : List ExcHandler),
      (acc ++ rs).Perm regs →
      acc.Pairwise (fun a b => handlerLt a b = true) →
      (rs.foldl add_exception_handler acc).Pairwise
          (fun a b => handlerLt a b = true)
      ∧ (rs.foldl add_exception_handler acc).Perm regs := by
  intro rs
  induction rs with
  | nil =>
    intro acc hperm hsort
    rw [List.foldl_nil]
    exact ⟨hsort, by simpa using hperm⟩
  | cons r rs2 ih =>
    intro acc hperm hsort
    rw [List.foldl_cons]
    have hfullnd : (acc ++ r :: rs2).Nodup := hperm.nodup_iff.mpr CH.regsNodup
    have hprefnd : (acc ++ [r]).Nodup := by
      refine hfullnd.sublist ?_
      exact List.Sublist.append_left
        (List.cons_sublist_cons.mpr (List.nil_sublist rs2)) acc
    have hPpref : ∀ a ∈ acc ++ [r], a ∈ regs := by
      intro a ha
      refine hperm.subset ?_
      rcases List.mem_append.mp ha with h | h
      · exact List.mem_append_left _ h
      · have : a = r := by simpa using h
        subst this
        exact List.mem_append_right _ (List.mem_cons_self _ _)
    obtain ⟨hssort, hsperm⟩ := pysort_spec handlerLt (fun h => h ∈ regs)
      CH.ltTot CH.ltTrans (acc ++ [r]) hprefnd hPpref
    refine ih (add_exception_handler acc r) ?_ hssort
    have heq : (acc ++ [r]) ++ rs2 = acc ++ r :: rs2 := by simp
    have hstep : (add_exception_handler acc r ++ rs2).Perm (acc ++ r :: rs2) :=
      heq ▸ (hsperm.append_right rs2)
    exact hstep.trans hperm

/-- The first match in a strictly sorted list is below every other match. -/
lemma find_first_in_sorted (p : ExcHandler → Bool) :
    ∀ (l : List ExcHandler),
      l.Pairwise (fun a b => handlerLt a b = true) →
      (∃ h ∈ l, p h = true) →
      ∃ m, l.find? p = some m ∧ m ∈ l ∧ p m = true
        ∧ ∀ o ∈ l, p o = true → o = m ∨ handlerLt m o = true := by
  intro l
  induction l with
  | nil =>
    rintro _ ⟨h, hm, _⟩
    exact absurd hm (List.not_mem_nil h)
  | cons a t ih =>
    intro hsort hex
    by_cases hpa : p a = true
    · refine ⟨a, List.find?_cons_of_pos t hpa, List.mem_cons_self _ _, hpa, ?_⟩
      intro o ho hpo
      rcases List.mem_cons.mp ho with rfl | ho2
      · exact Or.inl rfl
      · exact Or.inr ((List.pairwise_cons.mp hsort).1 o ho2)
    · have hpaf : p a = false := by rwa [Bool.not_eq_true] at hpa
      have hex2 : ∃ h ∈ t, p h = true := by
        obtain ⟨h, hm, hp⟩ := hex
        rcases List.mem_cons.mp hm with rfl | hm2
        · rw [hpaf] at hp
          exact absurd hp (by simp)
        · exact ⟨h, hm2, hp⟩
      obtain ⟨m, hfind, hmem, hpm, hleast⟩ := ih (List.pairwise_cons.mp hsort).2 hex2
      refine ⟨m, ?_, List.mem_cons_of_mem _ hmem, hpm, ?_⟩
      · rw [List.find?_cons_of_neg t (by rw [hpaf]; simp)]
        exact hfind
      · intro o ho hpo
        rcases List.mem_cons.mp ho with rfl | ho2
        · rw [hpaf] at hpo
          exact absurd hpo (by simp)
        · exact hleast o ho2 hpo

/-- Chain-registered handlers dispatch to a handler whose type is an
ancestor of the exception and a subclass of every registered matching
type. -/
lemma dispatch_in_chain (regs : List ExcHandler) (CH : ChainHyps regs)
    (excMro : List String)
    (hex : ∃ h ∈ regs, isinstanceOf excMro h.exc_type = true) :
    ∃ m, select_exc_handler (registerHandlers regs) excMro = some m
      ∧ m ∈ regs ∧ isinstanceOf excMro m.exc_type = true
      ∧ ∀ h ∈ regs, isinstanceOf excMro h.exc_type = true →
          issubclass m.exc_type h.exc_type = true := by
  obtain ⟨hsort, hperm⟩ := registerFold_spec regs CH regs []
    (by simp) List.Pairwise.nil
  have hex2 : ∃ h ∈ registerHandlers regs, isinstanceOf excMro h.exc_type = true := by
    obtain ⟨h, hm, hmatch⟩ := hex
    exact ⟨h, hperm.mem_iff.mpr hm, hmatch⟩
  obtain ⟨m, hfind, hmem, hpm, hleast⟩ := find_first_in_sorted
    (fun h => isinstanceOf excMro h.exc_type) (registerHandlers regs) hsort hex2
  refine ⟨m, hfind, hperm.subset hmem, hpm, ?_⟩
  intro h hh hmatch
  rcases hleast h (hperm.mem_iff.mpr hh) hmatch with heq | hlt
  · subst heq
    exact CH.selfSub h hh
  · by_cases hne : m = h
    · subst hne
      exact CH.selfSub m (hperm.subset hmem)
    · exact (CH.lt_iff m h (hperm.subset hmem) hh hne).mp hlt

/-! Concrete chain used by the amended C2 witness: `tAw` is a direct
subclass of `tBw`, and the raised exception is an instance of both. -/

def tBw : PyType := ⟨"Bb", ["Bb", "Exception", "BaseException", "object"]⟩

def tAw : PyType := ⟨"Aa", ["Aa", "Bb", "Exception", "BaseException", "object"]⟩

def hBw : ExcHandler := ⟨tBw, 10⟩

def hAw : ExcHandler := ⟨tAw, 11⟩

def emroAw : List String := ["Aa", "Bb", "Exception", "BaseException", "object"]

end Laconic

/-- C7: for every sequence of hook registrations for one event, every
priority is clamped into `[-1, 100]`, and the backing list is sorted by
`(-clamped priority, registration counter)` — i.e. iteration yields hooks
in strictly descending clamped-priority order, FIFO among equal clamped
priorities — while holding exactly one counter-stamped entry per
registration, counters numbered in registration order. -/
theorem Laconic.hook_priority_order_spec (regs : List (Int × Laconic.HookId)) :
    (Laconic.hookFold regs).elems.Perm (Laconic.hookEntries 0 regs)
    ∧ (Laconic.hookFold regs).elems.Pairwise Laconic.keyLt
    ∧ ∀ pr ∈ regs, -1 ≤ Laconic.clampPriority pr.1
        ∧ Laconic.clampPriority pr.1 ≤ 100 := by
  have h := Laconic.hookFoldFrom_spec regs ⟨[], 0⟩ (List.Pairwise.nil)
    (by intro y hy; exact absurd hy (List.not_mem_nil y))
  refine ⟨by simpa using h.1, h.2.1, ?_⟩
  intro pr _
  unfold Laconic.clampPriority
  split <;> [omega; split <;> omega]

/-- Witness for C7 at a concrete registration sequence: an out-of-range
priority is clamped and the backing list is sorted. -/
theorem Laconic.hook_priority_order_spec_witness :
    (-1 ≤ Laconic.clampPriority 200 ∧ Laconic.clampPriority 200 ≤ 100)
    ∧ (Laconic.hookFold [(200, .user 0), (5, .user 1), (5, .user 2)]).elems.Pairwise
        Laconic.keyLt :=
  ⟨(Laconic.hook_priority_order_spec [(200, .user 0), (5, .user 1), (5, .user 2)]).2.2
      (200, .user 0) (by decide),
   (Laconic.hook_priority_order_spec [(200, .user 0), (5, .user 1), (5, .user 2)]).2.1⟩

/-- C3 counterexample: the built-in auto-OPTIONS hook is claimed to leave
the response unchanged whenever an earlier hook already set one, and to run
after all user hooks.  On an OPTIONS request whose context already carries
a response the hook replaces it with its own empty-body Allow response;
and a user hook registered at priority `-5` (clamped to the minimum `-1`)
iterates *after* the built-in, because the built-in was registered first
and equal clamped priorities are FIFO. -/
theorem Laconic.auto_options_overwrites_response :
    Laconic.ctxWithResp.response
      = some (.vresp ⟨"earlier", some 200, []⟩)
    ∧ (Laconic.process_http_options [] Laconic.ctxWithResp).response
      = some (.vresp ⟨"", none, [("Allow", "")]⟩)
    ∧ (Laconic.process_http_options [] Laconic.ctxWithResp).response
      ≠ Laconic.ctxWithResp.response
    ∧ (Laconic.endpointHooks [(-5, .user 0)]).iterate
      = [Laconic.HookId.builtin, Laconic.HookId.user 0] := by
  refine ⟨rfl, rfl, ?_, rfl⟩
  decide

/-- C3 amended: the built-in auto-OPTIONS hook is registered first, at the
minimum priority, for `on_endpoint_determined`; hence it iterates after
every user hook of clamped priority above the minimum (but before user
hooks that share the minimum, by FIFO).  It leaves the context untouched
for non-OPTIONS requests, and for an OPTIONS request it installs its own
empty-body Allow response unconditionally, overwriting any response an
earlier hook produced. -/
theorem Laconic.auto_options_hook_spec :
    (∀ userRegs : List (Int × Laconic.HookId),
      ∃ X Y, (Laconic.endpointHooks userRegs).iterate
          = X ++ Laconic.HookId.builtin :: Y
        ∧ ∀ pr ∈ userRegs,
            (Laconic.clampPriority pr.1 > -1 → pr.2 ∈ X)
            ∧ (Laconic.clampPriority pr.1 = -1 → pr.2 ∈ Y))
    ∧ (∀ endpoints c, c.method ≠ "OPTIONS" →
        Laconic.process_http_options endpoints c = c)
    ∧ (∀ endpoints c, c.method = "OPTIONS" →
        (Laconic.process_http_options endpoints c).response
            = some (.vresp ⟨"", c.response_status,
                [("Allow", String.intercalate ","
                    (Laconic.get_available_methods endpoints c.path))]⟩)
          ∧ (Laconic.process_http_options endpoints c).state
            = .responseGenerated) := by
  refine ⟨?_, ?_, ?_⟩
  · intro userRegs
    have hinit : (Laconic.add_event_hook ⟨[], 0⟩ (-1) Laconic.HookId.builtin)
        = ⟨[(1, 0, Laconic.HookId.builtin)], 1⟩ := rfl
    have h := Laconic.hookFoldFrom_spec userRegs
      (Laconic.add_event_hook ⟨[], 0⟩ (-1) Laconic.HookId.builtin)
      (by rw [hinit]; exact List.pairwise_singleton _ _)
      (by rw [hinit]; intro y hy; simp at hy; rw [hy]; exact Nat.lt_succ_self 0)
    rw [hinit] at h
    have hperm : (Laconic.endpointHooks userRegs).elems.Perm
        ((1, 0, Laconic.HookId.builtin) :: Laconic.hookEntries 1 userRegs) := h.1
    have hpair : List.Pairwise Laconic.keyLt (Laconic.endpointHooks userRegs).elems := h.2.1
    have hbe : (1, 0, Laconic.HookId.builtin) ∈ (Laconic.endpointHooks userRegs).elems :=
      hperm.symm.subset (List.mem_cons_self _ _)
    obtain ⟨A, B, hsplit⟩ := List.append_of_mem hbe
    refine ⟨A.map (fun e => e.2.2), B.map (fun e => e.2.2), ?_, ?_⟩
    · unfold Laconic.SortedList.iterate
      rw [hsplit, List.map_append, List.map_cons]
    · intro pr hpr
      obtain ⟨c, hc1, hc2⟩ := Laconic.mem_hookEntries userRegs 1 pr.1 pr.2 (by
        cases pr; exact hpr)
      have hent : (-(Laconic.clampPriority pr.1), c, pr.2)
          ∈ (Laconic.endpointHooks userRegs).elems :=
        hperm.symm.subset (List.mem_cons_of_mem _ hc2)
      rw [hsplit] at hent hpair
      rcases List.pairwise_append.mp hpair with ⟨hA, hBB, hcross⟩
      rcases List.pairwise_cons.mp hBB with ⟨hbB, hB⟩
      constructor
      · intro hgt
        rcases List.mem_append.mp hent with hA2 | hB2
        · exact List.mem_map_of_mem _ hA2
        · exfalso
          rcases List.mem_cons.mp hB2 with heq | hB3
          · have : -(Laconic.clampPriority pr.1) = 1 := congrArg Prod.fst heq
            omega
          · have := hbB _ hB3
            unfold Laconic.keyLt at this
            simp only at this
            omega
      · intro heqp
        rcases List.mem_append.mp hent with hA2 | hB2
        · exfalso
          have := hcross _ hA2 _ (List.mem_cons_self _ _)
          unfold Laconic.keyLt at this
          simp only at this
          omega
        · rcases List.mem_cons.mp hB2 with heq | hB3
          · exfalso
            have : c = 0 := congrArg (fun e => e.2.1) heq
            omega
          · exact List.mem_map_of_mem _ hB3
  · intro endpoints c h
    simp [Laconic.process_http_options, h]
  · intro endpoints c h
    constructor <;>
      simp [Laconic.process_http_options, h, Laconic.make_context_response,
        Laconic.pyStr]

/-- Witness for C3 amended at concrete inputs: one user hook at priority 3
iterates before the built-in, and a non-OPTIONS context passes through the
built-in hook unchanged. -/
theorem Laconic.auto_options_hook_spec_witness :
    (∃ X Y, (Laconic.endpointHooks [(3, .user 7)]).iterate
        = X ++ Laconic.HookId.builtin :: Y
      ∧ ∀ pr ∈ [((3 : Int), Laconic.HookId.user 7)],
          (Laconic.clampPriority pr.1 > -1 → pr.2 ∈ X)
          ∧ (Laconic.clampPriority pr.1 = -1 → pr.2 ∈ Y))
    ∧ Laconic.process_http_options [] (Laconic.ctxAt .endpointDetermined)
      = Laconic.ctxAt .endpointDetermined :=
  ⟨Laconic.auto_options_hook_spec.1 [(3, .user 7)],
   Laconic.auto_options_hook_spec.2.1 [] (Laconic.ctxAt .endpointDetermined)
     (by decide)⟩

/-- C6 counterexample: every transition method is claimed to move the
Context to the designated successor state whenever it is invoked in the
required predecessor state.  `_determine_endpoint`, invoked in
`REQUEST_PARSED`, propagates the router's routing failure instead: the
method raises (not `ContextProcessingError`) and the context never reaches
`ENDPOINT_DETERMINED`. -/
theorem Laconic.transition_router_failure_no_move :
    (Laconic.ctxAt .requestParsed).state = Laconic.CState.requestParsed
    ∧ Laconic.determine_endpoint_step true (Laconic.ctxAt .requestParsed)
      = .error .routingFailure
    ∧ Laconic.StepExc.routingFailure ≠ Laconic.StepExc.contextProcessing
    ∧ Laconic.determine_endpoint_step true (Laconic.ctxAt .requestParsed)
      ≠ .ok { Laconic.ctxAt .requestParsed with
                endpointSet := true, state := .endpointDetermined } := by
  refine ⟨rfl, rfl, by decide, ?_⟩
  intro h
  have h2 : Except.error Laconic.StepExc.routingFailure
      = Except.ok { Laconic.ctxAt .requestParsed with
          endpointSet := true, state := .endpointDetermined } := h
  exact Except.noConfusion h2

/-- C6 amended: every lifecycle transition method raises
`ContextProcessingError` exactly when the Context is not in its required
predecessor state; in the required state, the method either completes and
moves the Context to a designated successor (the next linear state — for
dispatch also the error sink when no handler matches) or a collaborator
failure (routing, parameter binding, a handler raising) propagates out of
the method, which then raises something other than
`ContextProcessingError` and performs no state move. -/
theorem Laconic.context_transitions_spec :
    (∀ c : Laconic.Ctx,
      (c.state ≠ .created →
        Laconic.init_context_step c = .error .contextProcessing)
      ∧ (c.state = .created →
        Laconic.init_context_step c = .ok { c with state := .initialized }))
    ∧ (∀ c : Laconic.Ctx,
      (c.state ≠ .initialized →
        Laconic.process_request_step c = .error .contextProcessing)
      ∧ (c.state = .initialized →
        Laconic.process_request_step c
          = .ok { c with requestSet := true, state := .requestParsed }))
    ∧ (∀ (b : Bool) (c : Laconic.Ctx),
      (c.state ≠ .requestParsed →
        Laconic.determine_endpoint_step b c = .error .contextProcessing)
      ∧ (c.state = .requestParsed → b = true →
        Laconic.determine_endpoint_step b c = .error .routingFailure)
      ∧ (c.state = .requestParsed → b = false →
        Laconic.determine_endpoint_step b c
          = .ok { c with endpointSet := true, state := .endpointDetermined }))
    ∧ (∀ (bf : Bool) (inv : Except Unit Laconic.RVal)
        (hl : Option (Except Unit Laconic.RVal)) (c : Laconic.Ctx),
      (c.state ≠ .endpointDetermined →
        Laconic.dispatch_request_step bf inv hl c = .error .contextProcessing)
      ∧ (c.state = .endpointDetermined →
          (∀ c2, Laconic.dispatch_request_step bf inv hl c = .ok c2 →
            c2.state = .responseGenerated ∨ c2.state = .contextError)
          ∧ (∀ e, Laconic.dispatch_request_step bf inv hl c = .error e →
            e ≠ .contextProcessing)))
    ∧ (∀ (r : Laconic.RespObj) (c : Laconic.Ctx),
      (c.state ≠ .contextError →
        Laconic.process_error_step r c = .error .contextProcessing)
      ∧ (c.state = .contextError →
        Laconic.process_error_step r c
          = .ok { c with response := some (.vresp r), state := .responseGenerated }))
    ∧ (∀ c : Laconic.Ctx,
      (c.state ≠ .responseGenerated →
        Laconic.finalize_context_step c = .error .contextProcessing)
      ∧ (c.state = .responseGenerated →
        Laconic.finalize_context_step c = .ok { c with state := .contextFinalized })) := by
  refine ⟨?_, ?_, ?_, ?_, ?_, ?_⟩
  · intro c
    exact ⟨fun h => by simp [Laconic.init_context_step, h],
      fun h => by simp [Laconic.init_context_step, h]⟩
  · intro c
    exact ⟨fun h => by simp [Laconic.process_request_step, h],
      fun h => by simp [Laconic.process_request_step, h]⟩
  · intro b c
    refine ⟨fun h => by simp [Laconic.determine_endpoint_step, h],
      fun h hb => by simp [Laconic.determine_endpoint_step, h, hb],
      fun h hb => by simp [Laconic.determine_endpoint_step, h, hb]⟩
  · intro bf inv hl c
    refine ⟨fun h => by simp [Laconic.dispatch_request_step, h], fun h => ⟨?_, ?_⟩⟩
    · intro c2 hc2
      unfold Laconic.dispatch_request_step at hc2
      rw [if_neg (by simp [h])] at hc2
      cases bf
      · rw [if_neg (by simp)] at hc2
        cases inv with
        | ok v => exact Or.inl (congrArg Laconic.Ctx.state
            (Except.ok.inj hc2).symm)
        | error u =>
          cases hl with
          | none => exact Or.inr (congrArg Laconic.Ctx.state
              (Except.ok.inj hc2).symm)
          | some res =>
            cases res with
            | ok v => exact Or.inl (congrArg Laconic.Ctx.state
                (Except.ok.inj hc2).symm)
            | error u2 => exact absurd hc2 (by simp)
      · rw [if_pos rfl] at hc2
        exact absurd hc2 (by simp)
    · intro e he
      unfold Laconic.dispatch_request_step at he
      rw [if_neg (by simp [h])] at he
      cases bf
      · rw [if_neg (by simp)] at he
        cases inv with
        | ok v => exact absurd he (by simp)
        | error u =>
          cases hl with
          | none => exact absurd he (by simp)
          | some res =>
            cases res with
            | ok v => exact absurd he (by simp)
            | error u2 =>
              rw [(Except.error.inj he).symm]
              decide
      · rw [if_pos rfl] at he
        rw [(Except.error.inj he).symm]
        decide
  · intro r c
    exact ⟨fun h => by simp [Laconic.process_error_step, h],
      fun h => by simp [Laconic.process_error_step, h]⟩
  · intro c
    exact ⟨fun h => by simp [Laconic.finalize_context_step, h],
      fun h => by simp [Laconic.finalize_context_step, h]⟩

/-- Witness for C6 amended at concrete contexts: `_init_context` moves a
freshly created context to `INITIALIZED`, and `_finalize_context` invoked
out of its predecessor state raises `ContextProcessingError`. -/
theorem Laconic.context_transitions_spec_witness :
    Laconic.init_context_step (Laconic.ctxAt .created)
      = .ok { Laconic.ctxAt .created with state := .initialized }
    ∧ Laconic.finalize_context_step (Laconic.ctxAt .created)
      = .error .contextProcessing :=
  ⟨(Laconic.context_transitions_spec.1 (Laconic.ctxAt .created)).2 rfl,
   (Laconic.context_transitions_spec.2.2.2.2.2 (Laconic.ctxAt .created)).1
     (by decide)⟩

/-- C2 counterexample.  First, for unrelated exception types the claim
says the deeper (more specific) type orders strictly first; the code
returns `-1` exactly when the first type's ancestor chain is *shorter*:
`tX` (depth 5) and `tZ` (depth 4) are unrelated, yet
`exc_type_compare tX tZ = 1` and `exc_type_compare tZ tX = -1`.  Second,
selection is not permutation-invariant: with the cyclic comparison
`hX < hY` (depth), `hY < hZ` (subtype), `hZ < hX` (depth), registering
`[hX, hY, hZ]` versus `[hY, hZ, hX]` leaves both registries in their
registration order (each is already a single ascending run for
`list.sort`), and an exception that is an instance of all three types is
dispatched to `hX` in the first order but to `hY` in the second. -/
theorem Laconic.exc_dispatch_order_dependent :
    Laconic.issubclass Laconic.tX Laconic.tZ = false
    ∧ Laconic.issubclass Laconic.tZ Laconic.tX = false
    ∧ Laconic.tX.mro.length = 5
    ∧ Laconic.tZ.mro.length = 4
    ∧ Laconic.exc_type_compare Laconic.tX Laconic.tZ = 1
    ∧ Laconic.exc_type_compare Laconic.tZ Laconic.tX = -1
    ∧ Laconic.registerHandlers [Laconic.hX, Laconic.hY, Laconic.hZ]
      = [Laconic.hX, Laconic.hY, Laconic.hZ]
    ∧ Laconic.registerHandlers [Laconic.hY, Laconic.hZ, Laconic.hX]
      = [Laconic.hY, Laconic.hZ, Laconic.hX]
    ∧ [Laconic.hX, Laconic.hY, Laconic.hZ].Perm [Laconic.hY, Laconic.hZ, Laconic.hX]
    ∧ Laconic.select_exc_handler
        (Laconic.registerHandlers [Laconic.hX, Laconic.hY, Laconic.hZ]) Laconic.emroE
      = some Laconic.hX
    ∧ Laconic.select_exc_handler
        (Laconic.registerHandlers [Laconic.hY, Laconic.hZ, Laconic.hX]) Laconic.emroE
      = some Laconic.hY
    ∧ Laconic.hX ≠ Laconic.hY
    ∧ Laconic.isinstanceOf Laconic.emroE Laconic.tY = true := by
  decide

/-- C2 amended: `exc_type_compare` orders a subtype (weakly, hence a
strict subtype strictly) before its supertype, orders *unrelated* types by
ancestor-chain depth with the **shallower** (less specific) type first,
and breaks exact depth ties lexicographically by type name.  Because the
depth rule for unrelated types runs against the subtype rule, the
most-specific/permutation-invariance part of the claim survives only on
chains: when the registered handler types are pairwise distinct and
pairwise related by subclassing, dispatch always selects the handler whose
type is an ancestor of the exception and a subclass of every registered
matching type, and the selection is identical for every permutation of
the registration order. -/
theorem Laconic.exc_dispatch_chain_spec :
    (∀ t1 t2 : Laconic.PyType, Laconic.issubclass t1 t2 = true →
        Laconic.exc_type_compare t1 t2 = -1)
    ∧ (∀ t1 t2 : Laconic.PyType, Laconic.issubclass t1 t2 = false →
        Laconic.issubclass t2 t1 = false →
        t1.mro.length < t2.mro.length →
        Laconic.exc_type_compare t1 t2 = -1
        ∧ Laconic.exc_type_compare t2 t1 = 1)
    ∧ (∀ t1 t2 : Laconic.PyType, Laconic.issubclass t1 t2 = false →
        Laconic.issubclass t2 t1 = false →
        t1.mro.length = t2.mro.length →
        Laconic.exc_type_compare t1 t2 = if t1.name < t2.name then -1 else 1)
    ∧ (∀ regs : List Laconic.ExcHandler, Laconic.ChainHyps regs →
        ∀ excMro : List String,
          (∃ h ∈ regs, Laconic.isinstanceOf excMro h.exc_type = true) →
          ∃ m, Laconic.select_exc_handler (Laconic.registerHandlers regs) excMro
              = some m
            ∧ m ∈ regs ∧ Laconic.isinstanceOf excMro m.exc_type = true
            ∧ (∀ h ∈ regs, Laconic.isinstanceOf excMro h.exc_type = true →
                Laconic.issubclass m.exc_type h.exc_type = true)
            ∧ ∀ regs2 : List Laconic.ExcHandler, regs2.Perm regs →
                Laconic.select_exc_handler (Laconic.registerHandlers regs2) excMro
                  = some m) := by
  refine ⟨?_, ?_, ?_, ?_⟩
  · intro t1 t2 hsub
    unfold Laconic.exc_type_compare
    rw [if_pos hsub]
  · intro t1 t2 h1 h2 hlen
    have hn1 : ¬ Laconic.issubclass t1 t2 = true := by rw [h1]; simp
    have hn2 : ¬ Laconic.issubclass t2 t1 = true := by rw [h2]; simp
    constructor
    · unfold Laconic.exc_type_compare
      rw [if_neg hn1, if_neg hn2, if_neg (by omega), if_pos hlen]
    · unfold Laconic.exc_type_compare
      rw [if_neg hn2, if_neg hn1, if_neg (by omega), if_neg (by omega)]
  · intro t1 t2 h1 h2 hlen
    have hn1 : ¬ Laconic.issubclass t1 t2 = true := by rw [h1]; simp
    have hn2 : ¬ Laconic.issubclass t2 t1 = true := by rw [h2]; simp
    unfold Laconic.exc_type_compare
    rw [if_neg hn1, if_neg hn2, if_pos hlen]
  · intro regs CH excMro hex
    obtain ⟨m, hfind, hmem, hmatch, hmost⟩ :=
      Laconic.dispatch_in_chain regs CH excMro hex
    refine ⟨m, hfind, hmem, hmatch, hmost, ?_⟩
    intro regs2 hperm2
    have CH2 : Laconic.ChainHyps regs2 := Laconic.chainHyps_perm CH hperm2
    have hex2 : ∃ h ∈ regs2, Laconic.isinstanceOf excMro h.exc_type = true := by
      obtain ⟨h, hm, hp⟩ := hex
      exact ⟨h, hperm2.mem_iff.mpr hm, hp⟩
    obtain ⟨m2, hfind2, hmem2, hmatch2, hmost2⟩ :=
      Laconic.dispatch_in_chain regs2 CH2 excMro hex2
    have hm2m : Laconic.issubclass m2.exc_type m.exc_type = true :=
      hmost2 m (hperm2.mem_iff.mpr hmem) hmatch
    have hmm2 : Laconic.issubclass m.exc_type m2.exc_type = true :=
      hmost m2 (hperm2.subset hmem2) hmatch2
    have hty : m2.exc_type = m.exc_type :=
      CH.subAntisymm m2 (hperm2.subset hmem2) m hmem hm2m hmm2
    have hm2 : m2 = m := CH.tyInj m2 (hperm2.subset hmem2) m hmem hty
    rw [hfind2, hm2]

/-- Witness for the amended C2 at a concrete two-handler chain
(`tAw ⊂ tBw`): dispatch of an exception that is an instance of both picks
the handler whose type is a subclass of both registered types, in every
registration order. -/
theorem Laconic.exc_dispatch_chain_spec_witness :
    ∃ m, Laconic.select_exc_handler
        (Laconic.registerHandlers [Laconic.hBw, Laconic.hAw]) Laconic.emroAw
        = some m
      ∧ m ∈ [Laconic.hBw, Laconic.hAw]
      ∧ Laconic.isinstanceOf Laconic.emroAw m.exc_type = true
      ∧ (∀ h ∈ [Laconic.hBw, Laconic.hAw],
          Laconic.isinstanceOf Laconic.emroAw h.exc_type = true →
          Laconic.issubclass m.exc_type h.exc_type = true)
      ∧ ∀ regs2 : List Laconic.ExcHandler,
          regs2.Perm [Laconic.hBw, Laconic.hAw] →
          Laconic.select_exc_handler (Laconic.registerHandlers regs2)
            Laconic.emroAw = some m :=
  Laconic.exc_dispatch_chain_spec.2.2.2 [Laconic.hBw, Laconic.hAw]
    ⟨by decide, by decide, by decide, by decide, by decide⟩
    Laconic.emroAw ⟨Laconic.hBw, by decide, by decide⟩

/-- C9: For every AttributeScope and key, if the key is present in the
scope's own data, lookup is claimed to return the value stored for that key.
The code instead returns the whole data dict (`return self.data`), so on the
scope `{a ↦ 1}` the lookup of `a` yields the dict itself, not `1`; absent
keys do fall through to the parent (or `None` at the root) as claimed. -/
theorem Laconic.attribute_scope_returns_data_dict :
    Laconic.AttributeScope.getitem
        (.root [("a", Laconic.PyVal.vint 1)]) "a"
      = Laconic.PyVal.vdict [("a", Laconic.PyVal.vint 1)]
    ∧ Laconic.AttributeScope.getitem
        (.root [("a", Laconic.PyVal.vint 1)]) "a"
      ≠ Laconic.PyVal.vint 1
    ∧ Laconic.AttributeScope.getitem
        (.child [("a", Laconic.PyVal.vint 1)]
          (.root [("b", Laconic.PyVal.vint 2)])) "b"
      = Laconic.PyVal.vdict [("b", Laconic.PyVal.vint 2)] := by
  refine ⟨rfl, fun h => Laconic.PyVal.noConfusion h, rfl⟩

/-- C4: a `path` parameter is claimed to match any non-empty remainder of
the URL, separators included.  The compiled pattern for `path` is
`[^/].?`, which matches at most two characters, so the template
`/f/<path:p>` fails to match `/f/a/b/c` (it does match the two-character
remainder `ab`, exposing the truncated pattern).  The `int` rows of the
claim behave as specified: `/items/<int:id>` matches `/items/42` with
capture `id ↦ "42"` and rejects `/items/abc`. -/
theorem Laconic.url_path_param_match_fails :
    Laconic.compileRule "/f/<path:p>"
      = .ok [Laconic.UrlToken.lit ['/', 'f', '/'],
             Laconic.UrlToken.param .ppath "p", Laconic.UrlToken.lit []]
    ∧ Laconic.ruleFullmatch
        [Laconic.UrlToken.lit ['/', 'f', '/'],
         Laconic.UrlToken.param .ppath "p", Laconic.UrlToken.lit []]
        "/f/a/b/c" = none
    ∧ Laconic.ruleFullmatch
        [Laconic.UrlToken.lit ['/', 'f', '/'],
         Laconic.UrlToken.param .ppath "p", Laconic.UrlToken.lit []]
        "/f/ab" = some [("p", "ab")]
    ∧ Laconic.compileRule "/items/<int:id>"
      = .ok [Laconic.UrlToken.lit "/items/".data,
             Laconic.UrlToken.param .pint "id", Laconic.UrlToken.lit []]
    ∧ Laconic.ruleFullmatch
        [Laconic.UrlToken.lit "/items/".data,
         Laconic.UrlToken.param .pint "id", Laconic.UrlToken.lit []]
        "/items/42" = some [("id", "42")]
    ∧ Laconic.ruleFullmatch
        [Laconic.UrlToken.lit "/items/".data,
         Laconic.UrlToken.param .pint "id", Laconic.UrlToken.lit []]
        "/items/abc" = none := by
  exact ⟨rfl, rfl, rfl, rfl, rfl, rfl⟩

/-- C5: binding of one declared non-injected endpoint parameter.  An absent
raw value with no declared default raises `MissingParameterError` naming
the parameter; an absent raw value with a default uses the default (which
then flows through the constructor like any raw value, see C10); a raw
value the declared type constructor rejects raises
`InvalidParameterError` naming the parameter and the underlying cause. -/
theorem Laconic.endpoint_param_binding_spec
    (urlParams requestParam : String → Option Laconic.PyVal)
    (p : Laconic.EndpointParam) (rest : List Laconic.EndpointParam)
    (f : Laconic.PyVal → Except String Laconic.PyVal)
    (hty : p.ty = .ctorFn f) :
    (Laconic.resolveRaw p urlParams requestParam = none → p.dflt = none →
        Laconic.select_endpoint_params urlParams requestParam (p :: rest)
          = .error (.missingParameter p.name))
    ∧ (∀ d v, Laconic.resolveRaw p urlParams requestParam = none →
        p.dflt = some d → f d = .ok v →
        Laconic.select_endpoint_params urlParams requestParam (p :: rest)
          = (Laconic.select_endpoint_params urlParams requestParam rest).map
              (fun ps => (p.name, v) :: ps))
    ∧ (∀ raw e, Laconic.resolveRaw p urlParams requestParam = some raw →
        f raw = .error e →
        Laconic.select_endpoint_params urlParams requestParam (p :: rest)
          = .error (.invalidParameter p.name e)) := by
  refine ⟨fun hres hd => ?_, fun d v hres hd hf => ?_, fun raw e hres hf => ?_⟩
  · simp only [Laconic.select_endpoint_params, hty, hres, hd]
  · simp only [Laconic.select_endpoint_params, hty, hres, hd, hf]
  · simp only [Laconic.select_endpoint_params, hty, hres, hf]

/-- Witness for C5 at concrete inputs: a parameter `x` with no default and
an absent raw value fails with `MissingParameterError "x"`; a parameter `y`
whose default `7` the identity constructor accepts binds `y ↦ 7`. -/
theorem Laconic.endpoint_param_binding_spec_witness :
    Laconic.select_endpoint_params (fun _ => none) (fun _ => none)
        [⟨"x", .ctorFn (fun v => .ok v), none, none⟩]
      = .error (.missingParameter "x")
    ∧ Laconic.select_endpoint_params (fun _ => none) (fun _ => none)
        [⟨"y", .ctorFn (fun v => .ok v), some (.vint 7), none⟩]
      = .ok [("y", Laconic.PyVal.vint 7)] := by
  constructor
  · exact (Laconic.endpoint_param_binding_spec (fun _ => none) (fun _ => none)
      ⟨"x", .ctorFn (fun v => .ok v), none, none⟩ [] (fun v => .ok v) rfl).1 rfl rfl
  · exact (Laconic.endpoint_param_binding_spec (fun _ => none) (fun _ => none)
      ⟨"y", .ctorFn (fun v => .ok v), some (.vint 7), none⟩ [] (fun v => .ok v)
      rfl).2.1 (.vint 7) (.vint 7) rfl rfl rfl

/-- C10: a declared default that is used (raw value absent) is passed
through the declared type constructor exactly like a raw value, so a
default the constructor rejects makes binding fail with
`InvalidParameterError` naming the parameter and the cause, even though a
default was declared. -/
theorem Laconic.default_coerced_spec
    (urlParams requestParam : String → Option Laconic.PyVal)
    (p : Laconic.EndpointParam) (rest : List Laconic.EndpointParam)
    (f : Laconic.PyVal → Except String Laconic.PyVal)
    (d : Laconic.PyVal) (e : String)
    (hty : p.ty = .ctorFn f)
    (hres : Laconic.resolveRaw p urlParams requestParam = none)
    (hd : p.dflt = some d) (hf : f d = .error e) :
    Laconic.select_endpoint_params urlParams requestParam (p :: rest)
      = .error (.invalidParameter p.name e) := by
  simp only [Laconic.select_endpoint_params, hty, hres, hd, hf]

/-- Witness for C10: the parameter `z` declares the default `"abc"` but its
constructor (an int-like parser that rejects non-digits) raises, so binding
fails with `InvalidParameterError "z"` despite the declared default. -/
theorem Laconic.default_coerced_spec_witness :
    Laconic.select_endpoint_params (fun _ => none) (fun _ => none)
        [⟨"z", .ctorFn (fun v => match v with
            | .vint n => .ok (.vint n)
            | _ => .error "invalid literal for int"),
          some (.vstr "abc"), none⟩]
      = .error (.invalidParameter "z" "invalid literal for int") :=
  Laconic.default_coerced_spec (fun _ => none) (fun _ => none)
    ⟨"z", .ctorFn (fun v => match v with
        | .vint n => .ok (.vint n)
        | _ => .error "invalid literal for int"),
      some (.vstr "abc"), none⟩ []
    (fun v => match v with
      | .vint n => .ok (.vint n)
      | _ => .error "invalid literal for int")
    (.vstr "abc") "invalid literal for int" rfl rfl rfl rfl

/-- C8 counterexample: a handler declaring no bindable parameters is
claimed to be invoked with no arguments.  With an empty binding dict the
dispatch site falls back to `exc_handler(exc, self)`, a call with the
exception and the context as two positional arguments — not an empty
call.  The same fallback fires when every declared parameter matches
neither injected kind. -/
theorem Laconic.handler_no_bindable_positional_call :
    Laconic.handler_invocation [] (.vstr "boom") .vcontext
      = .positional [.vstr "boom", .vcontext]
    ∧ Laconic.handler_invocation [⟨"w", .otherKind⟩] (.vstr "boom") .vcontext
      = .positional [.vstr "boom", .vcontext]
    ∧ Laconic.HandlerCall.positional [.vstr "boom", .vcontext]
      ≠ Laconic.HandlerCall.kwargs [] :=
  ⟨rfl, rfl, fun h => Laconic.HandlerCall.noConfusion h⟩

/-- C8 amended: handler binding maps exactly the declared parameters of the
two injected kinds to the exception instance and the context, silently
skipping every other declared parameter; when at least one parameter was
bound the handler is called with those keyword arguments, and when none
was bound it is called with the exception and the context as two
positional arguments. -/
theorem Laconic.handler_param_binding_spec
    (ps : List Laconic.HandlerParam) (excV ctxV : Laconic.PyVal) :
    (∀ n v, (n, v) ∈ Laconic.select_handler_params excV ctxV ps ↔
        ∃ p, p ∈ ps ∧ p.name = n ∧
          ((p.kind = .excSub ∧ v = excV) ∨ (p.kind = .ctxSub ∧ v = ctxV)))
    ∧ (Laconic.select_handler_params excV ctxV ps = [] →
        Laconic.handler_invocation ps excV ctxV = .positional [excV, ctxV])
    ∧ (Laconic.select_handler_params excV ctxV ps ≠ [] →
        Laconic.handler_invocation ps excV ctxV
          = .kwargs (Laconic.select_handler_params excV ctxV ps)) := by
  have hsel : Laconic.select_handler_params excV ctxV ps
      = ps.filterMap (fun p =>
          match p.kind with
          | .excSub => some (p.name, excV)
          | .ctxSub => some (p.name, ctxV)
          | .otherKind => none) := by
    induction ps with
    | nil => rfl
    | cons p rest ih =>
      cases hk : p.kind <;>
        simp [Laconic.select_handler_params, hk, List.filterMap_cons, ih]
  refine ⟨fun n v => ?_, fun h => ?_, fun h => ?_⟩
  · rw [hsel, List.mem_filterMap]
    constructor
    · rintro ⟨p, hp, hf⟩
      refine ⟨p, hp, ?_⟩
      cases hk : p.kind <;> simp [hk] at hf
      · exact ⟨hf.1, Or.inl ⟨rfl, hf.2.symm⟩⟩
      · exact ⟨hf.1, Or.inr ⟨rfl, hf.2.symm⟩⟩
    · rintro ⟨p, hp, hn, hcase⟩
      refine ⟨p, hp, ?_⟩
      rcases hcase with ⟨hk, hv⟩ | ⟨hk, hv⟩ <;> simp [hk, hn, hv]
  · simp [Laconic.handler_invocation, h]
  · unfold Laconic.handler_invocation
    rw [if_neg (by simpa [List.isEmpty_iff] using h)]

/-- Witness for C8 amended at concrete inputs: one exception-typed
parameter yields a single-entry keyword call. -/
theorem Laconic.handler_param_binding_spec_witness :
    Laconic.handler_invocation [⟨"e", .excSub⟩] (.vstr "boom") .vcontext
      = .kwargs [("e", .vstr "boom")] := by
  have h := (Laconic.handler_param_binding_spec [⟨"e", .excSub⟩]
    (.vstr "boom") .vcontext).2.2
  simpa [Laconic.select_handler_params] using
    h (by simp [Laconic.select_handler_params])

/-- C1: a path-matching endpoint whose method list lacks the request method
is claimed to make `determine_endpoint` fail with `MethodNotAllowed`
carrying the union of methods.  The code reaches the
`raise APIMethodNotAllowedError(...)` statement, but the constructor calls
`BaseAPIException.__init__` without `self`, so evaluating the raise
expression throws `TypeError` instead; the no-match case does produce
`EndpointNotFound`. -/
theorem Laconic.determine_endpoint_method_not_allowed_type_error :
    Laconic.determine_endpoint
        [⟨fun p => p == "/x", ["GET", "OPTIONS"]⟩] "/x" "POST"
      = Laconic.RouteOutcome.typeError
    ∧ Laconic.determine_endpoint
        [⟨fun p => p == "/x", ["GET", "OPTIONS"]⟩] "/nope" "GET"
      = Laconic.RouteOutcome.endpointNotFound := by
  exact ⟨rfl, rfl⟩
